import Mathlib

/-!
Verification of the iReal Pro chart decoder (`choco/parsers/ireal_parser.py`).

The decoder's string-rewriting pipeline is embedded shallowly: chord strings
become `List Char`, the regex operations of the source are realised as
explicit character scans with the same matching semantics (leftmost match,
lazy and greedy quantifiers as used by each pattern), and Python exceptions
(`IndexError`, `AttributeError`, `AssertionError`, `RuntimeError`,
`ZeroDivisionError`) become an explicit error type `PErr`.  The unbounded
recursion of `_fill_long_repeats` is driven by an explicit fuel parameter;
running out of fuel is the distinguished error `PErr.fuel`.
-/

namespace IRealParser

/-- The open repeat-bracket character. -/
def obrace : Char := '\x7b'

/-- The close repeat-bracket character. -/
def cbrace : Char := '\x7d'

/-- Python `str` whitespace (the ASCII whitespace characters). -/
def isWs (c : Char) : Bool :=
  c = ' ' || c = '\t' || c = '\n' || c = '\r' || c = '\x0b' || c = '\x0c'

/-- Python `str.lstrip()`. -/
def lstrip (s : List Char) : List Char := s.dropWhile isWs

/-- Python `str.rstrip()`. -/
def rstrip (s : List Char) : List Char := (s.reverse.dropWhile isWs).reverse

/-- Python `str.strip()`. -/
def strip (s : List Char) : List Char := rstrip (lstrip s)

/-- Errors of the embedded decoder, mirroring the Python exceptions the
source can raise, plus fuel exhaustion for the explicit recursion bound. -/
inductive PErr where
  | fuel
  | index
  | attr
  | assertMacro
  | assertRepeat
  | assertKey
  | runtimeCodas
  | valueErr
  | zeroDiv
  deriving Repr, DecidableEq

/-- Last non-whitespace character of a chord string, if any
(Python `s.rstrip()[-1]`). -/
def lastNonWs (s : List Char) : Option Char := (rstrip s).getLast?

/-- First non-whitespace character of a chord string, if any
(Python `s.lstrip()[0]`). -/
def headNonWs (s : List Char) : Option Char := (lstrip s).head?

/-- The separator the `mjoin` loop inserts: a bar line exactly when neither
the previous piece ends with `|` nor the next one starts with it. -/
def mjoinSep (prev next : List Char) : List Char :=
  if lastNonWs prev ≠ some '|' ∧ headNonWs next ≠ some '|' then ['|'] else []

/-- Loop body of `mjoin`: walks the remaining chord strings keeping the
previously appended piece. -/
def mjoinAux : List Char → List Char → List (List Char) → List Char
  | acc, _, [] => acc
  | acc, prev, next :: rest =>
    mjoinAux (acc ++ mjoinSep prev next ++ next) (mjoinSep prev next ++ next) rest

/-- `mjoin` from the source: metrical join of chord strings, dropping the
blank ones and inserting a `|` separator where a bar line is missing.
Indexing the first kept string fails (`IndexError`) when every argument is
blank. -/
def mjoin (first : List Char) (others : List (List Char)) : Except PErr (List Char) :=
  match (first :: others).filter (fun cs => strip cs ≠ []) with
  | [] => .error .index
  | p :: rest => .ok (mjoinAux p p rest)

/-- Python `\w`: a word character. -/
def isWordChar (c : Char) : Bool := c.isAlphanum || c = '_'

mutual

/-- Modelled from the spec: the marker-stripping helper `_remove_markers`
inherited from the external `pyRealParser.Tune` base class, which is not part
of this repository.  Per the spec, repetitions are emitted "with markers
stripped": segno and coda marks, numbered-ending markers (an `N` followed by
a digit), section markers (a star followed by a word character), comment
annotations in angle brackets, and the formatting marker `U` are removed. -/
def removeMarkers : List Char → List Char
  | [] => []
  | [c] => if c = 'S' ∨ c = 'Q' ∨ c = 'U' then [] else [c]
  | c :: d :: rest2 =>
    if c = 'S' ∨ c = 'Q' ∨ c = 'U' then removeMarkers (d :: rest2)
    else if c = '<' ∧ (d :: rest2).any (fun x => x = '>') then rmSkipAngle (d :: rest2)
    else if (c = 'N' ∧ d.isDigit) ∨ (c = '*' ∧ isWordChar d) then removeMarkers rest2
    else c :: removeMarkers (d :: rest2)

/-- Skip up to and including the first `>` (the closing delimiter of an
angle-bracket comment), then resume marker removal. -/
def rmSkipAngle : List Char → List Char
  | [] => []
  | c :: rest => if c = '>' then removeMarkers rest else rmSkipAngle rest

end

/-- Helper for the lazy regex `\x7b(.+?)\x7d`: split a list at its first
close-bracket, requiring every character before it to be a `.`-matchable
(non-newline) character. -/
def splitAtClose : List Char → Option (List Char × List Char)
  | [] => none
  | c :: rest =>
    if c = cbrace then some ([], rest)
    else if c = '\n' then none
    else (splitAtClose rest).map (fun p => (c :: p.1, p.2))

/-- Match the tail `(.+?)\x7d` of the repeat-group regex: at least one
non-newline character, then the first close bracket. -/
def findGroupAt : List Char → Option (List Char × List Char)
  | [] => none
  | c :: rest =>
    if c = '\n' then none
    else (splitAtClose rest).map (fun p => (c :: p.1, p.2))

/-- `re.search(r'\x7b(.+?)\x7d', s)`: leftmost match of a repeat group,
decomposed as (text before the match, group content, text after the match). -/
def searchCurly : List Char → Option (List Char × List Char × List Char)
  | [] => none
  | c :: rest =>
    if c = obrace then
      match findGroupAt rest with
      | some (g, post) => some ([], g, post)
      | none => (searchCurly rest).map (fun t => (c :: t.1, t.2))
    else (searchCurly rest).map (fun t => (c :: t.1, t.2))

/-- `re.search(r'N(\d)', s) is not None`: the string contains an `N`
immediately followed by a digit. -/
def hasNDigit : List Char → Bool
  | [] => false
  | [_] => false
  | c :: d :: rest => (c = 'N' && d.isDigit) || hasNDigit (d :: rest)

/-- `re.sub(r'N\d', '', s)`: remove every `N`-digit pair, scanning left to
right without overlap. -/
def removeNDigit : List Char → List Char
  | [] => []
  | [c] => [c]
  | c :: d :: rest =>
    if c = 'N' ∧ d.isDigit then removeNDigit rest
    else c :: removeNDigit (d :: rest)

/-- Attempt to match the counted-repeat annotation `<\d+x>` at the head of
the list, returning the digits and the remainder after the match. -/
def countAnnotAt : List Char → Option (List Char × List Char)
  | [] => none
  | c :: rest =>
    if c = '<' then
      let ds := rest.takeWhile Char.isDigit
      if ds = [] then none
      else
        match rest.drop ds.length with
        | 'x' :: '>' :: post => some (ds, post)
        | _ => none
    else none

/-- Last match of `re.finditer(r'<(\d+)x>', s)` (the source uses the last
annotation), decomposed as (text before it, its digits, text after it). -/
def lastCountAnnot : List Char → Option (List Char × List Char × List Char)
  | [] => none
  | c :: rest =>
    match lastCountAnnot rest with
    | some (pre, ds, post) => some (c :: pre, ds, post)
    | none =>
      match countAnnotAt (c :: rest) with
      | some (ds, post) => some ([], ds, post)
      | none => none

/-- Python `int` on a string of decimal digits. -/
def natOfDigits (ds : List Char) : Nat :=
  ds.foldl (fun acc d => acc * 10 + (d.toNat - '0'.toNat)) 0

/-- Python `s.replace("  ", " ")`: collapse non-overlapping double spaces,
scanning left to right. -/
def replaceDoubleSpace : List Char → List Char
  | [] => []
  | [c] => [c]
  | c :: d :: rest =>
    if c = ' ' ∧ d = ' ' then ' ' :: replaceDoubleSpace rest
    else c :: replaceDoubleSpace (d :: rest)

/-- Tail `.+?\x7d` of the complex-repeat regex: at least one non-newline
character followed by the first close bracket; returns the number of
characters consumed. -/
def mrTail (s : List Char) : Option Nat :=
  match s with
  | [] => none
  | c :: rest =>
    if c = '\n' then none
    else (splitAtClose rest).map (fun p => p.1.length + 2)

/-- Scanner for the body `.+?N\d.+?\x7d` of the complex-repeat regex after
its opening bracket, with `acc` characters already consumed by the lazy
quantifier; implements the backtracking search for the earliest `N`-digit
marker whose tail also matches. -/
def mrBodyAux : List Char → Nat → Option Nat
  | [], _ => none
  | [_], _ => none
  | c :: d :: rest2, acc =>
    if c = '\n' then none
    else if c = 'N' ∧ d.isDigit then
      match mrTail rest2 with
      | some m => some (acc + 2 + m)
      | none => mrBodyAux (d :: rest2) (acc + 1)
    else mrBodyAux (d :: rest2) (acc + 1)

/-- Match of the complex-repeat regex `\x7b.+?N\d.+?\x7d` starting at an
open bracket: returns the number of characters consumed after the bracket. -/
def mrBody (s : List Char) : Option Nat :=
  match s with
  | [] => none
  | c :: rest => if c = '\n' then none else mrBodyAux rest 1

/-- `re.finditer` of the complex-repeat regex: the start positions of its
non-overlapping matches, scanning from position `pos`. -/
def mrStarts (s : List Char) (pos : Nat) : List Nat :=
  match s with
  | [] => []
  | c :: rest =>
    if c = obrace then
      match mrBody rest with
      | some m => pos :: mrStarts (rest.drop m) (pos + 1 + m)
      | none => mrStarts rest (pos + 1)
    else mrStarts rest (pos + 1)
termination_by s.length
decreasing_by
  all_goals simp [List.length_drop] <;> omega

/-- `re.search(r'([^N]+)N\d', s)` returning the first capture group: the
leftmost maximal non-`N` run that is immediately followed by an `N` and a
digit.  Returns `none` when the pattern does not match (the source then
raises `AttributeError` on `.group(1)`). -/
def searchContentN (s : List Char) : Option (List Char) :=
  match s with
  | [] => none
  | c :: rest =>
    if hc : c = 'N' then searchContentN rest
    else
      let run := (c :: rest).takeWhile (fun x => x ≠ 'N')
      match hd : (c :: rest).drop run.length with
      | 'N' :: d :: t => if d.isDigit then some run else searchContentN (d :: t)
      | _ => none
termination_by s.length
decreasing_by
  · simp <;> omega
  · have hlen : ((c :: rest).drop ((c :: rest).takeWhile (fun x => decide (x ≠ 'N'))).length).length
        = ('N' :: d :: t).length := by rw [hd]
    have h1 : ((c :: rest).takeWhile (fun x => decide (x ≠ 'N'))).length ≥ 1 := by
      have : (c :: rest).takeWhile (fun x => decide (x ≠ 'N')) = c :: rest.takeWhile (fun x => decide (x ≠ 'N')) := by
        simp [List.takeWhile_cons, hc]
      rw [this]; simp
    simp only [List.length_drop, List.length_cons] at hlen
    simp only [List.length_cons]
    omega

/-- Attempt to match the ending-marker regex `([\x7b\[|]?)\s*N(\d)` at the
head of the list: returns the first capture group (the optional bracket
character) and the length of the whole match. -/
def matchRependAt (s : List Char) : Option (List Char × Nat) :=
  match s with
  | [] => none
  | b :: t =>
    if b = obrace ∨ b = '[' ∨ b = '|' then
      let ws := t.takeWhile isWs
      match t.drop ws.length with
      | 'N' :: d :: _ => if d.isDigit then some ([b], 1 + ws.length + 2) else none
      | _ => none
    else
      let ws := (b :: t).takeWhile isWs
      match (b :: t).drop ws.length with
      | 'N' :: d :: _ => if d.isDigit then some ([], ws.length + 2) else none
      | _ => none

theorem matchRependAt_pos {s : List Char} {g : List Char} {len : Nat}
    (h : matchRependAt s = some (g, len)) : 1 ≤ len := by
  match s with
  | [] => simp [matchRependAt] at h
  | b :: t =>
    simp only [matchRependAt] at h
    by_cases hb : b = obrace ∨ b = '[' ∨ b = '|'
    · simp only [if_pos hb] at h
      rcases hmatch : t.drop (t.takeWhile isWs).length with _ | ⟨c, rest⟩ <;> rw [hmatch] at h
      · simp at h
      · rcases rest with _ | ⟨d, rest2⟩
        · rcases hc : c == 'N' <;> simp_all
        · by_cases hcn : c = 'N'
          · subst hcn
            by_cases hd : d.isDigit <;> simp [hd] at h
            omega
          · simp [hcn] at h
    · simp only [if_neg hb] at h
      rcases hmatch : (b :: t).drop ((b :: t).takeWhile isWs).length with _ | ⟨c, rest⟩ <;>
        rw [hmatch] at h
      · simp at h
      · rcases rest with _ | ⟨d, rest2⟩
        · rcases hc : c == 'N' <;> simp_all
        · by_cases hcn : c = 'N'
          · subst hcn
            by_cases hd : d.isDigit <;> simp [hd] at h
            omega
          · simp [hcn] at h

/-- `re.sub` of the ending-marker regex with the source's `mrep` replacement
function: a match that starts before position `bnd` is rewritten to its
bracket group followed by the repeated content, one at or past `bnd` is kept
verbatim; `pos` is the absolute position of the head of `s`. -/
def rependSub (rep : List Char) (bnd : Nat) (s : List Char) (pos : Nat) : List Char :=
  match s with
  | [] => []
  | c :: rest =>
    match hm : matchRependAt (c :: rest) with
    | some (g1, len) =>
      let repl := if pos < bnd then g1 ++ rep else (c :: rest).take len
      repl ++ rependSub rep bnd ((c :: rest).drop len) (pos + len)
    | none => c :: rependSub rep bnd rest (pos + 1)
termination_by s.length
decreasing_by
  · have := matchRependAt_pos hm
    simp [List.length_drop] <;> omega
  · simp <;> omega

/-- Number of matches found by `re.findall` of the ending-marker regex. -/
def rependCount (s : List Char) : Nat :=
  match s with
  | [] => 0
  | c :: rest =>
    match hm : matchRependAt (c :: rest) with
    | some (_, len) => 1 + rependCount ((c :: rest).drop len)
    | none => rependCount rest
termination_by s.length
decreasing_by
  · have := matchRependAt_pos hm
    simp [List.length_drop] <;> omega
  · simp <;> omega

/-- Apply a string transformation `n` times (the source's
`for _ in re.findall(...)` loop re-running `re.sub`). -/
def applyN (f : List Char → List Char) : Nat → List Char → List Char
  | 0, x => x
  | k + 1, x => applyN f k (f x)

/-- One invocation of `_fill_long_repeats` up to (but not including) its
recursive call: `ok none` means no repeat group was found and the string is
returned as is; `ok (some t)` means the recursion continues on `t`. -/
def fillLongStep (s : List Char) : Except PErr (Option (List Char)) :=
  match searchCurly s with
  | none => .ok none
  | some (pre, grp, post) =>
    if hasNDigit grp then
      match mrStarts s 0 with
      | [] => .error .index
      | m0 :: restStarts =>
        let bnd := match restStarts with | m1 :: _ => m1 | [] => s.length
        if m0 < bnd then
          let firstRepeat := removeNDigit grp
          match mjoin pre [firstRepeat, post] with
          | .error e => .error e
          | .ok joined =>
            match searchContentN grp with
            | none => .error .attr
            | some g1 =>
              let rep := removeMarkers g1
              let k := rependCount joined
              .ok (some (applyN (fun t => rependSub rep bnd t 0) k joined))
        else .error .assertMacro
    else
      let tr := match lastCountAnnot grp with
        | some (p, _, q) => replaceDoubleSpace (p ++ q)
        | none => grp
      let times := match lastCountAnnot grp with
        | some (_, ds, _) => natOfDigits ds
        | none => 2
      let reps := List.join (List.replicate (times - 1) (' ' :: '|' :: removeMarkers tr))
      match mjoin pre [tr, reps, post] with
      | .error e => .error e
      | .ok joined => .ok (some joined)

/-- `_fill_long_repeats` with an explicit fuel bound on the recursion depth:
expands one repeat group per step and recurses until none remains. -/
def fillLongRepeats : Nat → List Char → Except PErr (List Char)
  | 0, _ => .error .fuel
  | fuel + 1, s =>
    match fillLongStep s with
    | .error e => .error e
    | .ok none => .ok s
    | .ok (some t) => fillLongRepeats fuel t

/-- Indices of every occurrence of a character, in increasing order
(Python `[i for i, c in enumerate(s) if c == x]`). -/
def idxsOf (c : Char) : List Char → List Nat
  | [] => []
  | x :: rest =>
    let r := (idxsOf c rest).map (· + 1)
    if x = c then 0 :: r else r

/-- Python `s.find(c)`: index of the first occurrence, as an `Option`
instead of `-1`. -/
def findIdxOf (c : Char) (s : List Char) : Option Nat :=
  match idxsOf c s with
  | [] => none
  | i :: _ => some i

/-- The head-or-segno offset of `_fill_codas`: the position after the first
segno mark `S`, or the start of the string if no segno exists (Python
`segno = 0 if segno == -1 else segno + 1`). -/
def segnoOffset (s : List Char) : Nat :=
  match findIdxOf 'S' s with
  | none => 0
  | some i => i + 1

/-- `_fill_codas` from the source: case analysis on the number of coda
marks `Q`; more than two is a `RuntimeError`, one is deleted, two trigger
the segno-repeat rewrite followed by removal of all `Q` and `S` marks. -/
def fillCodas (s : List Char) : Except PErr (List Char) :=
  let qs := s.count 'Q'
  if qs > 2 then .error .runtimeCodas
  else if qs = 1 then .ok (s.filter (fun c => decide (c ≠ 'Q')))
  else if qs = 2 then
    match idxsOf 'Q' s with
    | [q1, q2] =>
      let coda := s.drop (q2 + 1)
      let rep := (s.take q1).drop (segnoOffset s)
      .ok ((s.take q2 ++ rep ++ [' ', '|'] ++ coda).filter
        (fun c => decide (c ≠ 'Q' ∧ c ≠ 'S')))
    | _ => .error .valueErr
  else .ok s

/-- `_insert_missing_repeat_brackets` from the source: when a close bracket
exists and either no open bracket exists or the first open bracket comes
after the first close bracket, an open bracket is prepended. -/
def insertMissingRepeatBrackets (s : List Char) : List Char :=
  let opn := findIdxOf obrace s
  let cld := findIdxOf cbrace s
  match cld with
  | none => s
  | some cl =>
    match opn with
    | none => obrace :: s
    | some op => if op > cl then obrace :: s else s

/-- `re.split(r"[rx]", m)` and `re.findall(r"[rx]", m)` computed together:
the fragments between single-measure and double-measure repeat markers, and
the markers themselves. -/
def splitRX : List Char → List (List Char) × List (List Char)
  | [] => ([[]], [])
  | c :: rest =>
    let p := splitRX rest
    if c = 'r' ∨ c = 'x' then ([] :: p.1, [c] :: p.2)
    else
      match p.1 with
      | s0 :: tl => ((c :: s0) :: tl, p.2)
      | [] => ([[c]], p.2)

/-- The interleaving comprehension of `_fill_single_double_repeats`:
`zip(splits, markers + [""])` flattened, each piece stripped and blanks
dropped. -/
def interleaveStrip : List (List Char) → List (List Char) → List (List Char)
  | [], _ => []
  | _ :: _, [] => []
  | sp :: ss, mk :: ms =>
    (if strip sp ≠ [] then [strip sp] else []) ++
      (if strip mk ≠ [] then [strip mk] else []) ++ interleaveStrip ss ms

/-- Splitting of one measure into content fragments and repeat markers. -/
def measuresXt (m : List Char) : List (List Char) :=
  let p := splitRX m
  interleaveStrip p.1 (p.2 ++ [[]])

/-- First pass of `_fill_single_double_repeats`: every measure is split
around its repeat markers and blanks are dropped. -/
def preMeasures (measures : List (List Char)) : List (List Char) :=
  (measures.map measuresXt).join

/-- Second pass of `_fill_single_double_repeats`: after every measure that
is exactly the double-repeat marker, a reserved blank slot is appended when
the next measure is absent or not blank. -/
def addSlots : List (List Char) → List (List Char)
  | [] => []
  | [m] => if m = ['r'] then [['r'], [' ']] else [m]
  | m :: nxt :: rest =>
    if m = ['r'] then
      if strip nxt ≠ [] then ['r'] :: [' '] :: addSlots (nxt :: rest)
      else ['r'] :: addSlots (nxt :: rest)
    else m :: addSlots (nxt :: rest)

/-- Python list indexing with negative-index wrap-around; out-of-range
raises `IndexError`. -/
def pyIdx (n : Nat) (k : Int) : Option Nat :=
  if k < 0 then
    if (-k).toNat ≤ n then some (n - (-k).toNat) else none
  else if k.toNat < n then some k.toNat else none

/-- Python `l[k]` on a list of measures. -/
def pyGet (l : List (List Char)) (k : Int) : Except PErr (List Char) :=
  match pyIdx l.length k with
  | some i =>
    match l.get? i with
    | some v => .ok v
    | none => .error .index
  | none => .error .index

/-- Third pass of `_fill_single_double_repeats` (the mutating loop from
index 1): a measure equal to the single-repeat marker is replaced by the
marker-stripped previous measure; one equal to the double-repeat marker is
replaced by the content two back (Python index `i-2`, wrapping to the end
of the list when `i = 1`), its successor is asserted blank and replaced by
the content one back. -/
def fillPhase3 : List (List Char) → Nat → Nat → Except PErr (List (List Char))
  | l, _, 0 => .ok l
  | l, i, cnt + 1 =>
    match l.get? i with
    | none => .error .index
    | some m =>
      if m = ['x'] then
        match pyGet l ((i : Int) - 1) with
        | .error e => .error e
        | .ok prev => fillPhase3 (l.set i (removeMarkers prev)) (i + 1) cnt
      else if m = ['r'] then
        match pyGet l ((i : Int) - 2) with
        | .error e => .error e
        | .ok two =>
          let l2 := l.set i (removeMarkers two)
          match l2.get? (i + 1) with
          | none => .error .index
          | some nx =>
            if strip nx = [] then
              match pyGet l2 ((i : Int) - 1) with
              | .error e => .error e
              | .ok one => fillPhase3 (l2.set (i + 1) (removeMarkers one)) (i + 1) cnt
            else .error .assertRepeat
      else fillPhase3 l (i + 1) cnt

/-- `_fill_single_double_repeats` from the source: the three passes in
order, with the mutating loop running over `range(1, len(new_measures))`. -/
def fillSingleDoubleRepeats (measures : List (List Char)) : Except PErr (List (List Char)) :=
  let l := addSlots (preMeasures measures)
  fillPhase3 l 1 (l.length - 1)

/-- An upper-case note letter `A`–`G`. -/
def isUpperAG (c : Char) : Bool := 'A' ≤ c && c ≤ 'G'

/-- Attempt to match the chord regex `(?<!/)([A-Gn][^A-G/]*(?:/[A-G][#b]?)?)`
at the head of `s`, where `prevc` is the character just before `s` (for the
negative lookbehind); returns the matched token and its length. -/
def chordMatchAt (prevc : Option Char) (s : List Char) : Option (List Char × Nat) :=
  match s with
  | [] => none
  | c :: rest =>
    if (isUpperAG c || c = 'n') && decide (prevc ≠ some '/') then
      let body := rest.takeWhile (fun x => !(isUpperAG x) && x ≠ '/')
      match rest.drop body.length with
      | '/' :: d :: r2 =>
        if isUpperAG d then
          let acc : List Char := match r2 with
            | e :: _ => if e = '#' ∨ e = 'b' then [e] else []
            | [] => []
          some (c :: body ++ '/' :: d :: acc, 1 + body.length + 2 + acc.length)
        else some (c :: body, 1 + body.length)
      | _ => some (c :: body, 1 + body.length)
    else none

theorem chordMatchAt_pos {prevc : Option Char} {s tok : List Char} {len : Nat}
    (h : chordMatchAt prevc s = some (tok, len)) : 1 ≤ len := by
  match s with
  | [] => simp [chordMatchAt] at h
  | c :: rest =>
    simp only [chordMatchAt] at h
    by_cases hc : ((isUpperAG c || c = 'n') && decide (prevc ≠ some '/')) = true
    · simp only [if_pos hc] at h
      rcases hmatch : rest.drop (rest.takeWhile (fun x => !(isUpperAG x) && x ≠ '/')).length with
        _ | ⟨e, r⟩ <;> rw [hmatch] at h
      · simp at h; omega
      · by_cases he : e = '/'
        · subst he
          rcases r with _ | ⟨d, r2⟩
          · simp at h; omega
          · by_cases hd : isUpperAG d = true <;> simp [hd] at h <;> omega
        · simp [he] at h; omega
    · rw [if_neg hc] at h
      simp at h

/-- `re.findall` of the chord regex: scan left to right, tracking the
previous character for the lookbehind, consuming each match whole.  The
fuel argument is a step bound; every step consumes at least one character,
so fuel equal to the scanned string's length always suffices. -/
def chordScan : Nat → Option Char → List Char → List (List Char)
  | 0, _, _ => []
  | _, _, [] => []
  | fuel + 1, prevc, c :: rest =>
    match chordMatchAt prevc (c :: rest) with
    | some (tok, len) =>
      tok :: chordScan fuel ((c :: rest).get? (len - 1)) ((c :: rest).drop len)
    | none => chordScan fuel (some c) rest

/-- `chord_regex.findall(s)` for the chord regex of the source. -/
def chordFindall (s : List Char) : List (List Char) := chordScan s.length none s

/-- `re.sub(r'^(p+)', repl, m)` with a literal replacement: the leading run
of `p` characters, if any, is replaced once. -/
def subLeadingPs (repl : List Char) (m : List Char) : List Char :=
  match m with
  | 'p' :: _ => repl ++ m.dropWhile (fun c => c = 'p')
  | _ => m

/-- The inner `while` loop of `_fill_slashes` on measure `i`, with fuel:
each slash `p` is replaced by the nearest preceding chord token, looking
back into the previous measure (Python index `i-1`, wrapping to the end of
the list when `i = 0`) when the slash is the first character. -/
def slashWhile (fuel : Nat) (ms : List (List Char)) (i : Nat) : Except PErr (List (List Char)) :=
  match fuel with
  | 0 => .error .fuel
  | fuel + 1 =>
    match pyGet ms (i : Int) with
    | .error e => .error e
    | .ok m =>
      match findIdxOf 'p' m with
      | none => .ok ms
      | some slash =>
        if slash = 0 then
          match pyGet ms ((i : Int) - 1) with
          | .error e => .error e
          | .ok pm =>
            match (chordFindall pm).getLast? with
            | none => .error .index
            | some pc =>
              let prevChord := pc ++ [' ']
              let m1 := prevChord ++ m.drop 1
              let m2 := subLeadingPs prevChord m1
              slashWhile fuel (ms.set i m2) i
        else
          match (chordFindall (m.take slash)).getLast? with
          | none => .error .index
          | some pc =>
            slashWhile fuel
              (ms.set i (m.take slash ++ pc ++ [' '] ++ m.drop (slash + 1))) i

/-- The outer loop of `_fill_slashes` over `range(len(measures))`, with
`cnt` iterations remaining. -/
def slashLoop (fuel : Nat) (ms : List (List Char)) (i : Nat) (cnt : Nat) :
    Except PErr (List (List Char)) :=
  match cnt with
  | 0 => .ok ms
  | cnt + 1 =>
    match slashWhile fuel ms i with
    | .error e => .error e
    | .ok ms2 => slashLoop fuel ms2 (i + 1) cnt

/-- `_fill_slashes` from the source, with fuel bounding each measure's
`while` loop. -/
def fillSlashes (fuel : Nat) (measures : List (List Char)) : Except PErr (List (List Char)) :=
  slashLoop fuel measures 0 measures.length

mutual

/-- Python `str.split()` with no argument: maximal runs of non-whitespace
characters. -/
def splitWs : List Char → List (List Char)
  | [] => []
  | c :: rest => if isWs c then splitWs rest else splitWsTok [c] rest

/-- Accumulates the current non-whitespace token (reversed) while splitting. -/
def splitWsTok (acc : List Char) : List Char → List (List Char)
  | [] => [acc.reverse]
  | c :: rest =>
    if isWs c then acc.reverse :: splitWs rest else splitWsTok (c :: acc) rest

end

/-- `np.cumsum`: the partial sums of a list of rationals. -/
def cumsum (l : List ℚ) : List ℚ := (l.scanl (· + ·) 0).drop 1

/-- The chord-timing loop of `extract_annotations_from_tune`: for the
1-based measure index `m` onward, each measure's tokens are timed by
dividing the beats per measure evenly (Python float division modelled over
`ℚ`; an empty measure raises `ZeroDivisionError`). -/
def extractChords : List (List Char) → Nat → Nat → Except PErr (List (Nat × ℚ × ℚ × List Char))
  | [], _, _ => .ok []
  | meas :: rest, b, m =>
    let toks := splitWs meas
    let k := toks.length
    if k = 0 then .error .zeroDiv
    else
      let d : ℚ := (b : ℚ) / (k : ℚ)
      let onsets := cumsum ((0 : ℚ) :: List.replicate (k - 1) d)
      let evs := (onsets.zip toks).map (fun oc => (m, oc.1, d, oc.2))
      match extractChords rest b (m + 1) with
      | .error e => .error e
      | .ok r => .ok (evs ++ r)

/-- `extract_annotations_from_tune` from the source, as a function of the
tune's measure list, time signature, and key: returns the chord events, the
single key event, and the single time-signature event (the latter two with
measure 1, beat 1, and duration `numerator * number of measures`). -/
def extractAnnotationsFromTune (measures : List (List Char)) (tsNum tsDen : Nat)
    (key : List Char) :
    Except PErr (List (Nat × ℚ × ℚ × List Char) × List (Nat × ℚ × ℚ × List Char) ×
      List (Nat × ℚ × ℚ × (Nat × Nat))) :=
  let beatDuration : ℚ := (tsNum : ℚ) * (measures.length : ℚ)
  match extractChords measures tsNum 1 with
  | .error e => .error e
  | .ok chords =>
    if (splitWs key).length = 1 then
      .ok (chords, [(1, (1 : ℚ), beatDuration, key)],
        [(1, (1 : ℚ), beatDuration, (tsNum, tsDen))])
    else .error .assertKey

/-- Whitespace normalization: collapse runs of whitespace to single spaces
and trim the ends (the "up to whitespace normalization" relation of the
spec's expansion example). -/
def normalizeWs (s : List Char) : List Char := List.intercalate [' '] (splitWs s)

/-- Modelled from the spec: the chord-timing law as the spec words it — for
each measure `m` (1-based) with `k` chord tokens, token `i` (0-based) is an
event at beat offset `i * (b / k)` with duration `b / k`.  Stated
independently of the source's `np.cumsum` loop so the two can be compared. -/
def specChordEvents : List (List Char) → Nat → Nat → List (Nat × ℚ × ℚ × List Char)
  | [], _, _ => []
  | meas :: rest, b, m =>
    let toks := splitWs meas
    let k := toks.length
    ((List.range k).zip toks).map
        (fun it => (m, (it.1 : ℚ) * ((b : ℚ) / (k : ℚ)), (b : ℚ) / (k : ℚ), it.2))
      ++ specChordEvents rest b (m + 1)

/-! ### Basic lemmas about the embedded primitives -/

theorem all_isWs_of_strip_eq_nil {cs : List Char} (h : strip cs = []) :
    ∀ x ∈ cs, isWs x := by
  intro x hx
  have hrs : (lstrip cs).reverse.dropWhile isWs = [] := by
    have := h
    unfold strip rstrip at this
    have hrev : ((lstrip cs).reverse.dropWhile isWs).reverse = [] := this
    simpa using congrArg List.reverse hrev
  have hall : ∀ y ∈ (lstrip cs).reverse, isWs y := List.dropWhile_eq_nil_iff.mp hrs
  have hsplit : cs.takeWhile isWs ++ lstrip cs = cs := List.takeWhile_append_dropWhile isWs cs
  rw [← hsplit] at hx
  rcases List.mem_append.mp hx with hx | hx
  · exact List.mem_takeWhile_imp hx
  · exact hall x (List.mem_reverse.mpr hx)

theorem count_cbrace_eq_zero_of_strip_eq_nil {cs : List Char} (h : strip cs = []) :
    cs.count cbrace = 0 := by
  rw [List.count_eq_zero]
  intro hmem
  have := all_isWs_of_strip_eq_nil h cbrace hmem
  simp [isWs, cbrace] at this

theorem removeMarkers_rmSkip_sublist :
    ∀ n : Nat, ∀ s : List Char, s.length ≤ n →
      (removeMarkers s).Sublist s ∧ (rmSkipAngle s).Sublist s := by
  intro n
  induction n with
  | zero =>
    intro s hs
    have : s = [] := List.eq_nil_of_length_eq_zero (Nat.le_zero.mp hs)
    subst this
    exact ⟨by simp [removeMarkers], by simp [rmSkipAngle]⟩
  | succ n ih =>
    intro s hs
    constructor
    · match s with
      | [] => simp [removeMarkers]
      | [c] =>
        rw [removeMarkers]
        by_cases hSQU : c = 'S' ∨ c = 'Q' ∨ c = 'U'
        · rw [if_pos hSQU]; exact List.nil_sublist [c]
        · rw [if_neg hSQU]
      | c :: d :: rest2 =>
        have hlen : (d :: rest2).length ≤ n := by
          simp only [List.length_cons] at hs ⊢; omega
        have hlen2 : rest2.length ≤ n := by
          simp only [List.length_cons] at hlen; omega
        rw [removeMarkers]
        by_cases hSQU : c = 'S' ∨ c = 'Q' ∨ c = 'U'
        · rw [if_pos hSQU]
          exact (ih (d :: rest2) hlen).1.trans (List.sublist_cons_self c (d :: rest2))
        · rw [if_neg hSQU]
          by_cases hlt : c = '<' ∧ (d :: rest2).any (fun x => x = '>')
          · rw [if_pos hlt]
            exact (ih (d :: rest2) hlen).2.trans (List.sublist_cons_self c (d :: rest2))
          · rw [if_neg hlt]
            by_cases hpair : (c = 'N' ∧ d.isDigit) ∨ (c = '*' ∧ isWordChar d)
            · rw [if_pos hpair]
              exact ((ih rest2 hlen2).1.trans (List.sublist_cons_self d rest2)).trans
                (List.sublist_cons_self c (d :: rest2))
            · rw [if_neg hpair]
              exact List.Sublist.cons₂ c (ih (d :: rest2) hlen).1
    · match s with
      | [] => simp [rmSkipAngle]
      | c :: rest =>
        have hlen : rest.length ≤ n := by
          simp only [List.length_cons] at hs; omega
        rw [rmSkipAngle]
        by_cases hc : c = '>'
        · rw [if_pos hc]
          exact (ih rest hlen).1.trans (List.sublist_cons_self c rest)
        · rw [if_neg hc]
          exact (ih rest hlen).2.trans (List.sublist_cons_self c rest)

theorem removeMarkers_sublist (s : List Char) : (removeMarkers s).Sublist s :=
  (removeMarkers_rmSkip_sublist s.length s le_rfl).1

theorem removeNDigit_sublist (s : List Char) : (removeNDigit s).Sublist s := by
  induction s using removeNDigit.induct with
  | case1 => simp [removeNDigit]
  | case2 c => simp [removeNDigit]
  | case3 c d rest hcd ih =>
    rw [removeNDigit, if_pos hcd]
    exact (ih.trans (List.sublist_cons_self d rest)).trans
      (List.sublist_cons_self c (d :: rest))
  | case4 c d rest hcd ih =>
    rw [removeNDigit, if_neg hcd]
    exact List.Sublist.cons₂ c ih

theorem replaceDoubleSpace_sublist (s : List Char) : (replaceDoubleSpace s).Sublist s := by
  induction s using replaceDoubleSpace.induct with
  | case1 => simp [replaceDoubleSpace]
  | case2 c => simp [replaceDoubleSpace]
  | case3 c d rest hcd ih =>
    rw [replaceDoubleSpace, if_pos hcd]
    rcases hcd with ⟨hc, hd⟩
    subst hc; subst hd
    exact List.Sublist.cons₂ ' ' (ih.trans (List.sublist_cons_self ' ' rest))
  | case4 c d rest hcd ih =>
    rw [replaceDoubleSpace, if_neg hcd]
    exact List.Sublist.cons₂ c ih

theorem drop_takeWhile_length (p : Char → Bool) :
    ∀ l : List Char, l.drop (l.takeWhile p).length = l.dropWhile p := by
  intro l
  induction l with
  | nil => simp
  | cons c rest ih =>
    by_cases hc : p c
    · simp [List.takeWhile_cons, List.dropWhile_cons, hc, ih]
    · simp [List.takeWhile_cons, List.dropWhile_cons, hc]

/-! ### Decomposition of the regex scanners -/

theorem splitAtClose_spec :
    ∀ {t u post : List Char}, splitAtClose t = some (u, post) →
      t = u ++ cbrace :: post ∧ ∀ x ∈ u, x ≠ cbrace := by
  intro t
  induction t with
  | nil => intro u post h; simp [splitAtClose] at h
  | cons c rest ih =>
    intro u post h
    rw [splitAtClose] at h
    by_cases hc : c = cbrace
    · rw [if_pos hc] at h
      simp only [Option.some.injEq, Prod.mk.injEq] at h
      rcases h with ⟨hu, hp⟩
      subst hu; subst hp; subst hc
      exact ⟨rfl, by simp⟩
    · rw [if_neg hc] at h
      by_cases hn : c = '\n'
      · rw [if_pos hn] at h; simp at h
      · rw [if_neg hn] at h
        rcases hsp : splitAtClose rest with _ | ⟨u', post'⟩ <;> rw [hsp] at h
        · simp at h
        · simp only [Option.map_some', Option.some.injEq, Prod.mk.injEq] at h
          rcases h with ⟨hu, hp⟩
          rcases ih hsp with ⟨ht, hnc⟩
          subst hp
          constructor
          · rw [← hu]; simp [ht]
          · intro x hx
            rw [← hu] at hx
            rcases List.mem_cons.mp hx with hx | hx
            · subst hx; exact hc
            · exact hnc x hx

theorem findGroupAt_spec :
    ∀ {t g post : List Char}, findGroupAt t = some (g, post) →
      t = g ++ cbrace :: post ∧ g ≠ [] ∧ ∀ x ∈ g.drop 1, x ≠ cbrace := by
  intro t g post h
  match t with
  | [] => simp [findGroupAt] at h
  | c :: rest =>
    rw [findGroupAt] at h
    by_cases hn : c = '\n'
    · rw [if_pos hn] at h; simp at h
    · rw [if_neg hn] at h
      rcases hsp : splitAtClose rest with _ | ⟨u', post'⟩ <;> rw [hsp] at h
      · simp at h
      · simp only [Option.map_some', Option.some.injEq, Prod.mk.injEq] at h
        rcases h with ⟨hg, hp⟩
        rcases splitAtClose_spec hsp with ⟨ht, hnc⟩
        subst hp
        refine ⟨?_, ?_, ?_⟩
        · rw [← hg]; simp [ht]
        · rw [← hg]; simp
        · intro x hx
          rw [← hg] at hx
          simp only [List.drop_one, List.tail_cons] at hx
          exact hnc x hx

theorem searchCurly_spec :
    ∀ {s pre grp post : List Char}, searchCurly s = some (pre, grp, post) →
      s = pre ++ obrace :: (grp ++ cbrace :: post) ∧ grp ≠ [] ∧
        ∀ x ∈ grp.drop 1, x ≠ cbrace := by
  intro s
  induction s with
  | nil => intro pre grp post h; simp [searchCurly] at h
  | cons c rest ih =>
    intro pre grp post h
    rw [searchCurly] at h
    by_cases hc : c = obrace
    · rw [if_pos hc] at h
      rcases hfg : findGroupAt rest with _ | ⟨g', post'⟩ <;> rw [hfg] at h
      · rcases hsc : searchCurly rest with _ | ⟨pre', rest2⟩ <;> rw [hsc] at h
        · simp at h
        · simp only [Option.map_some', Option.some.injEq, Prod.mk.injEq] at h
          rcases h with ⟨hpre, hrest⟩
          rcases ih (by rw [hsc, hrest]) with ⟨hs, hg, hnc⟩
          subst hpre
          exact ⟨by rw [List.cons_append, ← hs], hg, hnc⟩
      · simp only [Option.some.injEq, Prod.mk.injEq] at h
        rcases h with ⟨hpre, hg, hp⟩
        rcases findGroupAt_spec hfg with ⟨ht, hne, hnc⟩
        subst hpre; subst hg; subst hp; subst hc
        exact ⟨by simp [ht], hne, hnc⟩
    · rw [if_neg hc] at h
      rcases hsc : searchCurly rest with _ | ⟨pre', rest2⟩ <;> rw [hsc] at h
      · simp at h
      · simp only [Option.map_some', Option.some.injEq, Prod.mk.injEq] at h
        rcases h with ⟨hpre, hrest⟩
        rcases ih (by rw [hsc, hrest]) with ⟨hs, hg, hnc⟩
        subst hpre
        exact ⟨by rw [List.cons_append, ← hs], hg, hnc⟩

theorem countAnnotAt_spec :
    ∀ {t ds post : List Char}, countAnnotAt t = some (ds, post) →
      t = '<' :: (ds ++ 'x' :: '>' :: post) ∧ ∀ x ∈ ds, x.isDigit := by
  intro t ds post h
  match t with
  | [] => simp [countAnnotAt] at h
  | c :: rest =>
    simp only [countAnnotAt] at h
    split at h
    · rename_i hc
      split at h
      · simp at h
      · split at h
        · rename_i hpost hdrop
          simp only [Option.some.injEq, Prod.mk.injEq] at h
          rcases h with ⟨hds2, hp⟩
          subst hc; subst hp
          constructor
          · have hsplit : rest.takeWhile Char.isDigit ++
                rest.drop (rest.takeWhile Char.isDigit).length = rest := by
              rw [drop_takeWhile_length]
              exact List.takeWhile_append_dropWhile Char.isDigit rest
            rw [hdrop] at hsplit
            rw [hds2] at hsplit
            rw [← hsplit]
          · intro y hy
            rw [← hds2] at hy
            exact List.mem_takeWhile_imp hy
        · simp at h
    · simp at h

theorem lastCountAnnot_spec :
    ∀ {g p ds q : List Char}, lastCountAnnot g = some (p, ds, q) →
      g = p ++ '<' :: (ds ++ 'x' :: '>' :: q) ∧ ∀ x ∈ ds, x.isDigit := by
  intro g
  induction g with
  | nil => intro p ds q h; simp [lastCountAnnot] at h
  | cons c rest ih =>
    intro p ds q h
    rw [lastCountAnnot] at h
    rcases hrec : lastCountAnnot rest with _ | ⟨pre', ds', post'⟩ <;> rw [hrec] at h
    · rcases hat : countAnnotAt (c :: rest) with _ | ⟨ds2, post2⟩ <;> rw [hat] at h
      · simp at h
      · simp only [Option.some.injEq, Prod.mk.injEq] at h
        rcases h with ⟨hp, hds, hq⟩
        subst hp; subst hds; subst hq
        rcases countAnnotAt_spec hat with ⟨hshape, hdig⟩
        exact ⟨by simpa using hshape, hdig⟩
    · simp only [Option.some.injEq, Prod.mk.injEq] at h
      rcases h with ⟨hp, hds, hq⟩
      subst hds; subst hq
      rcases ih hrec with ⟨hshape, hdig⟩
      refine ⟨?_, hdig⟩
      rw [← hp]
      simp [hshape]

/-! ### Counting the close brackets through one expansion step -/

theorem count_mjoinSep (ch : Char) (hch : ch ≠ '|') (prev next : List Char) :
    (mjoinSep prev next).count ch = 0 := by
  rw [mjoinSep]
  split
  · simp [List.count_cons, hch]
  · simp

theorem mjoinAux_count (ch : Char) (hch : ch ≠ '|') :
    ∀ (l : List (List Char)) (acc prev : List Char),
      (mjoinAux acc prev l).count ch = acc.count ch + (l.map (List.count ch)).sum := by
  intro l
  induction l with
  | nil => intro acc prev; simp [mjoinAux]
  | cons next rest ih =>
    intro acc prev
    rw [mjoinAux]
    rw [ih]
    simp [List.count_append, count_mjoinSep ch hch]
    omega

theorem sum_counts_filter_strip (l : List (List Char)) :
    (((l.filter (fun cs => strip cs ≠ [])).map (List.count cbrace)).sum) =
      ((l.map (List.count cbrace)).sum) := by
  induction l with
  | nil => simp
  | cons cs rest ih =>
    simp only [ne_eq, decide_not] at ih
    by_cases h : strip cs = []
    · simp [List.filter_cons, h, ih, count_cbrace_eq_zero_of_strip_eq_nil h]
    · simp [List.filter_cons, h, ih]

theorem mjoin_count {first : List Char} {others : List (List Char)} {r : List Char}
    (h : mjoin first others = .ok r) :
    r.count cbrace = first.count cbrace + ((others.map (List.count cbrace)).sum) := by
  simp only [mjoin] at h
  split at h
  · simp at h
  · rename_i p rest hfilter
    simp only [Except.ok.injEq] at h
    subst h
    have h1 : (mjoinAux p p rest).count cbrace
        = p.count cbrace + (rest.map (List.count cbrace)).sum :=
      mjoinAux_count cbrace (by decide) rest p p
    have h2 : p.count cbrace + (rest.map (List.count cbrace)).sum
        = (((first :: others).filter (fun cs => strip cs ≠ [])).map (List.count cbrace)).sum := by
      rw [hfilter]
      simp
    rw [h1, h2, sum_counts_filter_strip]
    simp

theorem searchContentN_eq_some_run (c : Char) (rest : List Char) (hc : ¬c = 'N')
    (d : Char) (t : List Char)
    (hdrop : (c :: rest).drop ((c :: rest).takeWhile (fun x => x ≠ 'N')).length = 'N' :: d :: t)
    (hdig : d.isDigit) :
    searchContentN (c :: rest) = some ((c :: rest).takeWhile (fun x => x ≠ 'N')) := by
  rw [searchContentN.eq_def]
  dsimp only
  rw [dif_neg hc]
  split
  · rename_i d' t' heq
    rw [hdrop] at heq
    cases heq
    rw [if_pos hdig]
  · rename_i hno
    exact (hno d t hdrop).elim

theorem searchContentN_eq_recurse (c : Char) (rest : List Char) (hc : ¬c = 'N')
    (d : Char) (t : List Char)
    (hdrop : (c :: rest).drop ((c :: rest).takeWhile (fun x => x ≠ 'N')).length = 'N' :: d :: t)
    (hnd : ¬d.isDigit) :
    searchContentN (c :: rest) = searchContentN (d :: t) := by
  rw [searchContentN.eq_def]
  dsimp only
  rw [dif_neg hc]
  split
  · rename_i d' t' heq
    rw [hdrop] at heq
    cases heq
    rw [if_neg hnd]
  · rename_i hno
    exact (hno d t hdrop).elim

theorem searchContentN_eq_none (c : Char) (rest : List Char) (hc : ¬c = 'N')
    (hno : ∀ (d : Char) (t : List Char),
      (c :: rest).drop ((c :: rest).takeWhile (fun x => x ≠ 'N')).length = 'N' :: d :: t → False) :
    searchContentN (c :: rest) = none := by
  rw [searchContentN.eq_def]
  dsimp only
  rw [dif_neg hc]
  split
  · rename_i d' t' heq
    exact (hno d' t' heq).elim
  · rfl

theorem searchContentN_sublist :
    ∀ {s g1 : List Char}, searchContentN s = some g1 → g1.Sublist s := by
  intro s
  induction s using searchContentN.induct
  case case1 => intro g1 h; simp [searchContentN] at h
  case case2 rest ih =>
    intro g1 h
    rw [show searchContentN ('N' :: rest) = searchContentN rest by simp [searchContentN]] at h
    exact (ih h).trans (List.sublist_cons_self 'N' rest)
  case case3 c rest hc run d t hdrop hdig =>
    intro g1 h
    rw [searchContentN_eq_some_run c rest hc d t hdrop hdig] at h
    simp only [Option.some.injEq] at h
    subst h
    exact List.takeWhile_sublist _
  case case4 c rest hc run d t hdrop hnd ih =>
    intro g1 h
    rw [searchContentN_eq_recurse c rest hc d t hdrop hnd] at h
    have hsub : (d :: t).Sublist ('N' :: d :: t) := List.sublist_cons_self 'N' (d :: t)
    have hsuffix : ('N' :: d :: t).Sublist (c :: rest) := by
      rw [← hdrop]
      exact List.drop_sublist _ _
    exact ((ih h).trans hsub).trans hsuffix
  case case5 c rest hc run hno =>
    intro g1 h
    rw [searchContentN_eq_none c rest hc hno] at h
    simp at h

theorem count_join_eq (a : Char) :
    ∀ l : List (List Char), l.join.count a = (l.map (List.count a)).sum := by
  intro l
  induction l with
  | nil => simp
  | cons x rest ih => simp [List.count_append, ih]

theorem count_eq_zero_of_all_isWs {u : List Char} (hu : ∀ x ∈ u, isWs x) :
    u.count cbrace = 0 := by
  rw [List.count_eq_zero]
  intro hmem
  have := hu cbrace hmem
  simp [isWs, cbrace] at this

theorem take_after_ws {t : List Char} {d : Char} {rest2 : List Char}
    (hdrop : t.drop (t.takeWhile isWs).length = 'N' :: d :: rest2) :
    t.take ((t.takeWhile isWs).length + 2) = t.takeWhile isWs ++ ['N', d] := by
  obtain ⟨ws, hws⟩ : ∃ ws, t.takeWhile isWs = ws := ⟨_, rfl⟩
  have hsplit : ws ++ t.drop ws.length = t := by
    rw [← hws, drop_takeWhile_length]
    exact List.takeWhile_append_dropWhile isWs t
  rw [hws] at hdrop ⊢
  have hteq : t = ws ++ 'N' :: d :: rest2 := by
    rw [← hdrop]
    exact hsplit.symm
  rw [hteq, List.take_append]
  rfl

theorem matchRependAt_count {s g1 : List Char} {len : Nat}
    (h : matchRependAt s = some (g1, len)) :
    (s.take len).count cbrace = 0 ∧ g1.count cbrace = 0 := by
  match s with
  | [] => simp [matchRependAt] at h
  | b :: t =>
    simp only [matchRependAt] at h
    split at h
    · rename_i hb
      split at h
      · rename_i d rest2 hdrop
        split at h
        · rename_i hdig
          simp only [Option.some.injEq, Prod.mk.injEq] at h
          rcases h with ⟨hg, hlen⟩
          subst hg
          have hb' : ¬b = cbrace := by
            rcases hb with hb | hb | hb <;> subst hb <;> simp [cbrace, obrace]
          have hdd : ¬d = cbrace := by
            intro hcon
            subst hcon
            simp [cbrace] at hdig
          constructor
          · have htake : (b :: t).take len = b :: t.take ((t.takeWhile isWs).length + 2) := by
              rw [← hlen]
              have h3 : 1 + (t.takeWhile isWs).length + 2
                  = ((t.takeWhile isWs).length + 2) + 1 := by omega
              rw [h3]
              simp [List.take_succ_cons]
            rw [htake, take_after_ws hdrop]
            simp only [List.count_cons, List.count_append]
            rw [count_eq_zero_of_all_isWs (fun x hx => List.mem_takeWhile_imp hx)]
            simp [List.count_cons, hb', hdd]
            decide
          · simp [List.count_cons, hb']
        · simp at h
      · simp at h
    · rename_i hb
      split at h
      · rename_i d rest2 hdrop
        split at h
        · rename_i hdig
          simp only [Option.some.injEq, Prod.mk.injEq] at h
          rcases h with ⟨hg, hlen⟩
          subst hg
          have hdd : ¬d = cbrace := by
            intro hcon
            subst hcon
            simp [cbrace] at hdig
          refine ⟨?_, by simp⟩
          rw [← hlen, take_after_ws hdrop]
          simp only [List.count_append]
          rw [count_eq_zero_of_all_isWs (fun x hx => List.mem_takeWhile_imp hx)]
          simp [List.count_cons, hdd]
          decide
        · simp at h
      · simp at h

theorem rependSub_nil (rep : List Char) (bnd pos : Nat) :
    rependSub rep bnd [] pos = [] := by
  rw [rependSub.eq_def]

theorem rependSub_cons_match {c : Char} {rest g1 : List Char} {len : Nat}
    (rep : List Char) (bnd pos : Nat)
    (hm : matchRependAt (c :: rest) = some (g1, len)) :
    rependSub rep bnd (c :: rest) pos =
      (if pos < bnd then g1 ++ rep else (c :: rest).take len) ++
        rependSub rep bnd ((c :: rest).drop len) (pos + len) := by
  rw [rependSub.eq_def]
  dsimp only
  split
  · rename_i g1' len' hm'
    rw [hm] at hm'
    simp only [Option.some.injEq, Prod.mk.injEq] at hm'
    rcases hm' with ⟨hg, hl⟩
    subst hg; subst hl
    rfl
  · rename_i hm'
    rw [hm] at hm'
    simp at hm'

theorem rependSub_cons_none {c : Char} {rest : List Char}
    (rep : List Char) (bnd pos : Nat)
    (hm : matchRependAt (c :: rest) = none) :
    rependSub rep bnd (c :: rest) pos = c :: rependSub rep bnd rest (pos + 1) := by
  rw [rependSub.eq_def]
  dsimp only
  split
  · rename_i g1' len' hm'
    rw [hm] at hm'
    simp at hm'
  · rfl

theorem rependSub_count (rep : List Char) (bnd : Nat) (hrep : rep.count cbrace = 0) :
    ∀ (s : List Char) (pos : Nat), (rependSub rep bnd s pos).count cbrace = s.count cbrace := by
  intro s pos
  induction s, pos using rependSub.induct rep bnd
  case case1 => rw [rependSub_nil]
  case case2 pos c rest g1 len hm ih =>
    rw [rependSub_cons_match rep bnd pos hm]
    rcases matchRependAt_count hm with ⟨htake, hg1⟩
    have hsum : (c :: rest).count cbrace
        = ((c :: rest).take len).count cbrace + ((c :: rest).drop len).count cbrace := by
      conv_lhs => rw [← List.take_append_drop len (c :: rest)]
      rw [List.count_append]
    rw [List.count_append, ih, hsum, htake]
    split
    · rw [List.count_append, hg1, hrep]
    · rw [htake]
  case case3 pos c rest hm ih =>
    rw [rependSub_cons_none rep bnd pos hm]
    simp only [List.count_cons, ih]

theorem applyN_count (f : List Char → List Char)
    (hf : ∀ t, (f t).count cbrace = t.count cbrace) :
    ∀ (k : Nat) (x : List Char), (applyN f k x).count cbrace = x.count cbrace := by
  intro k
  induction k with
  | zero => intro x; rfl
  | succ n ih =>
    intro x
    rw [applyN, ih, hf]

/-- The close-bracket count of the group matched by `searchCurly` is zero
whenever the group does not begin with a close bracket. -/
theorem grp_count_zero {s pre grp post : List Char}
    (hsc : searchCurly s = some (pre, grp, post))
    (hhead : grp.head? ≠ some cbrace) : grp.count cbrace = 0 := by
  rcases searchCurly_spec hsc with ⟨hs, hne, htail⟩
  rw [List.count_eq_zero]
  intro hmem
  rcases grp with _ | ⟨g0, gtl⟩
  · simp at hmem
  · rcases List.mem_cons.mp hmem with hmem | hmem
    · rw [← hmem] at hhead
      simp at hhead
    · exact (htail cbrace (by simpa using hmem)) rfl

theorem count_s_decomp {s pre grp post : List Char}
    (hsc : searchCurly s = some (pre, grp, post)) :
    s.count cbrace = pre.count cbrace + grp.count cbrace + post.count cbrace + 1 := by
  rcases searchCurly_spec hsc with ⟨hs, _, _⟩
  rw [hs]
  simp [List.count_append, List.count_cons, cbrace, obrace]
  omega

/-- One expansion step of the Repeat Expansion Engine strictly decreases the
number of close brackets, provided the matched group does not begin with a
close bracket. -/
theorem fillLongStep_count_lt {s pre grp post t : List Char}
    (hsc : searchCurly s = some (pre, grp, post))
    (hhead : grp.head? ≠ some cbrace)
    (hstep : fillLongStep s = .ok (some t)) :
    t.count cbrace < s.count cbrace := by
  have hgrp : grp.count cbrace = 0 := grp_count_zero hsc hhead
  have hcount : s.count cbrace = pre.count cbrace + post.count cbrace + 1 := by
    rw [count_s_decomp hsc, hgrp]
    omega
  rw [fillLongStep] at hstep
  rw [hsc] at hstep
  dsimp only at hstep
  split at hstep
  · -- numbered-ending branch
    split at hstep
    · simp at hstep
    · split at hstep
      · split at hstep
        · simp at hstep
        · rename_i joined hjoin
          split at hstep
          · simp at hstep
          · rename_i g1 hg1
            simp only [Except.ok.injEq, Option.some.injEq] at hstep
            subst hstep
            have hrepc : (removeMarkers g1).count cbrace = 0 := by
              have h1 : (removeMarkers g1).count cbrace ≤ g1.count cbrace :=
                (removeMarkers_sublist g1).count_le cbrace
              have h2 : g1.count cbrace ≤ grp.count cbrace :=
                (searchContentN_sublist hg1).count_le cbrace
              omega
            rw [applyN_count _ (fun u => rependSub_count _ _ hrepc u 0)]
            have hjc := mjoin_count hjoin
            have hfr : (removeNDigit grp).count cbrace = 0 := by
              have := (removeNDigit_sublist grp).count_le cbrace
              omega
            simp only [List.map_cons, List.map_nil, List.sum_cons, List.sum_nil] at hjc
            omega
      · simp at hstep
  · -- counted-bracket branch
    split at hstep
    · simp at hstep
    · rename_i joined hjoin
      simp only [Except.ok.injEq, Option.some.injEq] at hstep
      subst hstep
      have hjc := mjoin_count hjoin
      simp only [List.map_cons, List.map_nil, List.sum_cons, List.sum_nil] at hjc
      have htr : (match lastCountAnnot grp with
          | some (p, _, q) => replaceDoubleSpace (p ++ q)
          | none => grp).count cbrace = 0 := by
        rcases hla : lastCountAnnot grp with _ | ⟨p, ds, q⟩
        · exact hgrp
        · dsimp only
          rcases lastCountAnnot_spec hla with ⟨hshape, _⟩
          have hsub : ((p ++ q).count cbrace) ≤ grp.count cbrace := by
            rw [hshape]
            simp [List.count_append, List.count_cons, cbrace]
          have h2 := (replaceDoubleSpace_sublist (p ++ q)).count_le cbrace
          omega
      obtain ⟨T, hT⟩ : ∃ T, (match lastCountAnnot grp with
          | some (p, _, q) => replaceDoubleSpace (p ++ q)
          | none => grp) = T := ⟨_, rfl⟩
      rw [hT] at hjc htr
      have hpiece : (' ' :: '|' :: removeMarkers T).count cbrace = 0 := by
        have hrm := (removeMarkers_sublist T).count_le cbrace
        simp only [List.count_cons, cbrace] at hrm htr ⊢
        simp
        omega
      have hreps : ∀ times : Nat, (List.join (List.replicate times
          (' ' :: '|' :: removeMarkers T))).count cbrace = 0 := by
        intro times
        rw [count_join_eq]
        induction times with
        | zero => simp
        | succ n ihn =>
          simp only [List.replicate_succ, List.map_cons, List.sum_cons, ihn, hpiece]
      rw [hjc, htr, hreps]
      omega

theorem fillLongStep_ok_none {s : List Char} (h : fillLongStep s = .ok none) :
    searchCurly s = none := by
  rcases hsc : searchCurly s with _ | ⟨pre, grp, post⟩
  · rfl
  · exfalso
    rw [fillLongStep] at h
    rw [hsc] at h
    dsimp only at h
    split at h
    · split at h
      · simp at h
      · split at h
        · split at h
          · simp at h
          · split at h
            · simp at h
            · simp at h
        · simp at h
    · split at h
      · simp at h
      · simp at h

theorem fillLongRepeats_ok_no_group :
    ∀ (fuel : Nat) (s r : List Char), fillLongRepeats fuel s = .ok r →
      searchCurly r = none := by
  intro fuel
  induction fuel with
  | zero => intro s r h; simp [fillLongRepeats] at h
  | succ n ih =>
    intro s r h
    rw [fillLongRepeats] at h
    rcases hstep : fillLongStep s with e | o <;> rw [hstep] at h
    · simp at h
    · rcases o with _ | t
      · simp only [Except.ok.injEq] at h
        subst h
        exact fillLongStep_ok_none hstep
      · exact ih t r h

/-! ### Claim C1 -/

/-- C1 counterexample: the balanced-bracket input `"\x7b\x7dN1"` (one open and
one close repeat bracket, so the bracket counts are equal) is returned by
`_fill_long_repeats` completely unchanged, still containing an open bracket,
a close bracket, and a numbered-ending marker `N1` — contradicting the claim
that for every balanced input the output contains no repeat-bracket or
numbered-ending markers. -/
theorem c1_counterexample :
    fillLongRepeats 9 [obrace, cbrace, 'N', '1'] = .ok [obrace, cbrace, 'N', '1'] ∧
      [obrace, cbrace, 'N', '1'].count obrace = [obrace, cbrace, 'N', '1'].count cbrace ∧
      obrace ∈ [obrace, cbrace, 'N', '1'] ∧
      cbrace ∈ [obrace, cbrace, 'N', '1'] ∧
      hasNDigit [obrace, cbrace, 'N', '1'] = true :=
  ⟨rfl, rfl, by simp, by simp, rfl⟩

/-- C1 (amended): whenever the Repeat Expansion Engine `_fill_long_repeats`
returns a string, that string contains no complete repeat group — the regex
`\x7b(.+?)\x7d` no longer matches.  Stray unmatched brackets and stray
numbered-ending markers (as in the balanced input `"\x7b\x7dN1"`) may
remain. -/
theorem c1_engine_output_has_no_repeat_group (fuel : Nat) (s r : List Char)
    (h : fillLongRepeats fuel s = .ok r) : searchCurly r = none :=
  fillLongRepeats_ok_no_group fuel s r h

/-- C1 witness: on the input `"\x7bA\x7d"` the engine returns `"A |A"`, and
the theorem yields that no repeat group remains in it. -/
theorem c1_witness : searchCurly "A |A".toList = none :=
  c1_engine_output_has_no_repeat_group 2 (obrace :: 'A' :: [cbrace]) "A |A".toList rfl

/-! ### Claim C9 -/

/-- C9 counterexample: on the input `"\x7b\x7da<3x>\x7d"` the recursive
invocation of `_fill_long_repeats` finds a repeat group (the lazy match
`\x7b(.+?)\x7d` whose group is `"\x7da<3x>"`, beginning with a close
bracket) and produces `"\x7da |\x7da |\x7da"`, which has three close
brackets where the input had two — so an invocation can produce a string
with strictly more `\x7d` characters, refuting the claimed decreasing
measure. -/
theorem c9_counterexample :
    fillLongStep "\x7b\x7da<3x>\x7d".toList = .ok (some "\x7da |\x7da |\x7da".toList) ∧
      "\x7da |\x7da |\x7da".toList.count cbrace = 3 ∧
      "\x7b\x7da<3x>\x7d".toList.count cbrace = 2 :=
  ⟨rfl, by decide, by decide⟩

/-- C9 (amended): an invocation of `_fill_long_repeats` either finds no
repeat group and returns, or rewrites the string; whenever the matched
group does not begin with a close bracket, the rewritten string has
strictly fewer `\x7d` characters than the input.  When the group does begin
with a close bracket (a degenerate leading `"\x7b\x7d"`), the count can
grow instead, so the unconditional decreasing measure claimed for
termination does not exist. -/
theorem c9_expansion_step_decreases_close_brackets
    (s pre grp post t : List Char)
    (hsc : searchCurly s = some (pre, grp, post))
    (hhead : grp.head? ≠ some cbrace)
    (hstep : fillLongStep s = .ok (some t)) :
    t.count cbrace < s.count cbrace :=
  fillLongStep_count_lt hsc hhead hstep

/-- C9 witness: on `"\x7bA\x7db\x7d"` the step rewrites to `"A |A|b\x7d"`
and the close-bracket count drops from 2 to 1. -/
theorem c9_witness :
    fillLongStep "\x7bA\x7db\x7d".toList = .ok (some "A |A|b\x7d".toList) ∧
      "A |A|b\x7d".toList.count cbrace < "\x7bA\x7db\x7d".toList.count cbrace :=
  ⟨rfl, c9_expansion_step_decreases_close_brackets "\x7bA\x7db\x7d".toList
    [] ['A'] ('b' :: [cbrace]) "A |A|b\x7d".toList rfl (by decide) rfl⟩

/-! ### Claim C4 -/

theorem findIdxOf_cons (c x : Char) (rest : List Char) :
    findIdxOf c (x :: rest) =
      if x = c then some 0 else (findIdxOf c rest).map (· + 1) := by
  rw [findIdxOf, idxsOf]
  by_cases hx : x = c
  · simp [hx]
  · simp only [if_neg hx]
    rw [findIdxOf]
    rcases idxsOf c rest with _ | ⟨i, is⟩ <;> simp

theorem findIdxOf_eq_none_iff (c : Char) :
    ∀ s : List Char, findIdxOf c s = none ↔ c ∉ s := by
  intro s
  induction s with
  | nil => simp [findIdxOf, idxsOf]
  | cons x rest ih =>
    rw [findIdxOf_cons]
    by_cases hx : x = c
    · simp [hx]
    · rcases h : findIdxOf c rest with _ | i
      · simp only [if_neg hx, h]
        simp only [h, true_iff] at ih
        simp [ih, hx]
        intro hcon
        exact hx hcon.symm
      · simp only [if_neg hx, h, Option.map_some']
        have hcin : c ∈ rest := by
          by_contra hcon
          rw [h] at ih
          have := ih.mpr hcon
          simp at this
        simp [hcin]

/-- C4 counterexample: the input `"\x7d\x7b"` has equal open and close
bracket counts, yet the Repeat-Bracket Reconciler alters it (prepending an
open bracket), and the result `"\x7b\x7d\x7b"` has unequal counts —
contradicting both that the counts match after it runs and that it only
alters strings with unequal counts. -/
theorem c4_counterexample :
    List.count obrace [cbrace, obrace] = List.count cbrace [cbrace, obrace] ∧
      insertMissingRepeatBrackets [cbrace, obrace] = [obrace, cbrace, obrace] ∧
      insertMissingRepeatBrackets [cbrace, obrace] ≠ [cbrace, obrace] ∧
      List.count obrace (insertMissingRepeatBrackets [cbrace, obrace]) ≠
        List.count cbrace (insertMissingRepeatBrackets [cbrace, obrace]) := by
  refine ⟨by decide, rfl, by decide, by decide⟩

/-- C4 (amended): the Repeat-Bracket Reconciler never inserts a close
bracket; its only possible alteration is prepending a single open bracket,
and it does so exactly when a close bracket occurs before any open bracket
(that is, a `\x7d` lies in the prefix of the string before the first
`\x7b`).  Bracket balance after it runs is not guaranteed. -/
theorem c4_reconciler_characterization (s : List Char) :
    insertMissingRepeatBrackets s =
      (if cbrace ∈ s.takeWhile (fun c => c ≠ obrace) then obrace :: s else s) := by
  induction s with
  | nil => simp [insertMissingRepeatBrackets, findIdxOf, idxsOf]
  | cons x rest ih =>
    by_cases hxc : x = cbrace
    · subst hxc
      rw [insertMissingRepeatBrackets]
      rw [findIdxOf_cons, findIdxOf_cons]
      rw [if_pos rfl]
      rw [if_neg (by decide : ¬(cbrace = obrace))]
      have hmem : cbrace ∈ (cbrace :: rest).takeWhile (fun c => c ≠ obrace) := by
        rw [List.takeWhile_cons, if_pos (by decide)]
        exact List.mem_cons_self _ _
      rcases h : findIdxOf obrace rest with _ | j
      · simp only [Option.map_none']
        rw [if_pos hmem]
      · simp only [Option.map_some']
        rw [if_pos (by omega : j + 1 > 0), if_pos hmem]
    · by_cases hxo : x = obrace
      · subst hxo
        rw [insertMissingRepeatBrackets]
        rw [findIdxOf_cons, findIdxOf_cons]
        rw [if_pos rfl]
        rw [if_neg (by decide : ¬(obrace = cbrace))]
        have hmem : cbrace ∉ (obrace :: rest).takeWhile (fun c => c ≠ obrace) := by
          rw [List.takeWhile_cons, if_neg (by decide)]
          simp
        rcases h : findIdxOf cbrace rest with _ | k
        · simp only [Option.map_none']
          rw [if_neg hmem]
        · simp only [Option.map_some']
          rw [if_neg (by omega : ¬(0 > k + 1)), if_neg hmem]
      · have hmem_iff : (cbrace ∈ (x :: rest).takeWhile (fun c => c ≠ obrace)) ↔
            (cbrace ∈ rest.takeWhile (fun c => c ≠ obrace)) := by
          rw [List.takeWhile_cons, if_pos (by simpa using hxo)]
          constructor
          · intro hmem
            rcases List.mem_cons.mp hmem with h1 | h1
            · exact absurd h1.symm hxc
            · exact h1
          · intro hmem
            exact List.mem_cons_of_mem x hmem
        have hih : insertMissingRepeatBrackets rest = obrace :: rest ↔
            cbrace ∈ rest.takeWhile (fun c => c ≠ obrace) := by
          constructor
          · intro heq
            by_contra hcon
            rw [ih, if_neg hcon] at heq
            have := congrArg List.length heq
            simp at this
          · intro hmem
            rw [ih, if_pos hmem]
        rw [insertMissingRepeatBrackets]
        rw [findIdxOf_cons, findIdxOf_cons]
        rw [if_neg hxc, if_neg hxo]
        rcases hc : findIdxOf cbrace rest with _ | k
        · simp only [Option.map_none']
          rw [if_neg (by
            rw [hmem_iff]
            intro hmem
            have hnone := (findIdxOf_eq_none_iff cbrace rest).mp hc
            exact hnone ((List.takeWhile_sublist _).subset hmem))]
        · simp only [Option.map_some']
          rcases ho : findIdxOf obrace rest with _ | j
          · simp only [Option.map_none']
            have hmem : cbrace ∈ rest.takeWhile (fun c => c ≠ obrace) := by
              have hnoobr := (findIdxOf_eq_none_iff obrace rest).mp ho
              have hcin : cbrace ∈ rest := by
                by_contra hcon
                rw [(findIdxOf_eq_none_iff cbrace rest).mpr hcon] at hc
                simp at hc
              have : rest.takeWhile (fun c => c ≠ obrace) = rest :=
                List.takeWhile_eq_self_iff.mpr (fun y hy => by
                  simp only [ne_eq, decide_eq_true_eq]
                  intro hcon
                  exact hnoobr (hcon ▸ hy))
              rw [this]
              exact hcin
            rw [if_pos (by rw [hmem_iff]; exact hmem)]
          · simp only [Option.map_some']
            have hfun : insertMissingRepeatBrackets rest
                = if j > k then obrace :: rest else rest := by
              rw [insertMissingRepeatBrackets]
              rw [hc, ho]
            by_cases hjk : j > k
            · rw [if_pos (by omega : j + 1 > k + 1)]
              rw [if_pos (by
                rw [hmem_iff]
                rw [← hih, hfun, if_pos hjk])]
            · rw [if_neg (by omega : ¬(j + 1 > k + 1))]
              rw [if_neg (by
                rw [hmem_iff]
                intro hmem
                have := hih.mpr hmem
                rw [hfun, if_neg hjk] at this
                have hlen := congrArg List.length this
                simp at hlen)]

/-! ### Claim C3 -/

theorem idxsOf_nil_of_not_mem {ch : Char} : ∀ {l : List Char}, ch ∉ l → idxsOf ch l = [] := by
  intro l
  induction l with
  | nil => intro _; rfl
  | cons x rest ih =>
    intro h
    rw [idxsOf]
    have hx : ¬(x = ch) := fun hc => h (hc ▸ List.mem_cons_self x rest)
    rw [if_neg hx, ih (fun hm => h (List.mem_cons_of_mem x hm))]
    rfl

theorem idxsOf_append (ch : Char) :
    ∀ a b : List Char, idxsOf ch (a ++ b) = idxsOf ch a ++ (idxsOf ch b).map (· + a.length) := by
  intro a
  induction a with
  | nil => intro b; simp [idxsOf]
  | cons x rest ih =>
    intro b
    rw [List.cons_append, idxsOf, idxsOf, ih]
    have hmm : ((idxsOf ch b).map (· + rest.length)).map (· + 1)
        = (idxsOf ch b).map (· + (x :: rest).length) := by
      rw [List.map_map]
      congr 1
    by_cases hx : x = ch
    · rw [if_pos hx, if_pos hx]
      simp only [List.map_append, List.cons_append]
      rw [hmm]
    · rw [if_neg hx, if_neg hx]
      simp only [List.map_append]
      rw [hmm]

theorem count_eq_zero_of_not_mem' {ch : Char} {l : List Char} (h : ch ∉ l) :
    l.count ch = 0 := List.count_eq_zero.mpr h

theorem filter_ne_of_not_mem {ch : Char} {l : List Char} (h : ch ∉ l) :
    l.filter (fun c => decide (c ≠ ch)) = l := by
  apply List.filter_eq_self.mpr
  intro a ha
  simp only [ne_eq, decide_eq_true_eq]
  intro hc
  exact h (hc ▸ ha)

/-- C3: the Coda/Segno Resolver `_fill_codas` performs exactly the claimed
case analysis on the number of coda marks `Q`: zero marks, identity; one
mark, the `Q` is removed; two marks at positions `q1 < q2`, the result is
(prefix up to `q2`) ++ (the span from just after the first `S`, or the
start when no `S` exists, up to `q1`) ++ a bar separator ++ (suffix after
`q2`), with every remaining `Q` and `S` removed; more than two marks, an
error is raised. -/
theorem c3_fill_codas_cases (s : List Char) :
    (s.count 'Q' = 0 → fillCodas s = .ok s) ∧
    (∀ a b : List Char, s = a ++ 'Q' :: b → 'Q' ∉ a → 'Q' ∉ b →
      fillCodas s = .ok (a ++ b)) ∧
    (∀ a b c : List Char, s = a ++ 'Q' :: (b ++ 'Q' :: c) →
      'Q' ∉ a → 'Q' ∉ b → 'Q' ∉ c →
      (fillCodas s = .ok ((((a ++ 'Q' :: b) ++ ((s.take a.length).drop (segnoOffset s)))
          ++ ([' ', '|'] ++ c)).filter (fun x => decide (x ≠ 'Q' ∧ x ≠ 'S'))) ∧
        ('S' ∉ s → (s.take a.length).drop (segnoOffset s) = a) ∧
        (∀ u v : List Char, s = u ++ 'S' :: v → 'S' ∉ u →
          segnoOffset s = u.length + 1))) ∧
    (s.count 'Q' > 2 → fillCodas s = .error .runtimeCodas) := by
  refine ⟨?_, ?_, ?_, ?_⟩
  · intro h0
    rw [fillCodas]
    rw [if_neg (by omega), if_neg (by omega), if_neg (by omega)]
  · intro a b hs ha hb
    have hcount : s.count 'Q' = 1 := by
      rw [hs, List.count_append, List.count_cons]
      rw [count_eq_zero_of_not_mem' ha, count_eq_zero_of_not_mem' hb]
      simp
    rw [fillCodas]
    rw [if_neg (by omega), if_pos hcount]
    rw [hs, List.filter_append, List.filter_cons]
    rw [filter_ne_of_not_mem ha, filter_ne_of_not_mem hb]
    simp
  · intro a b c hs ha hb hc
    have hidx : idxsOf 'Q' s = [a.length, a.length + (1 + b.length)] := by
      rw [hs, idxsOf_append, idxsOf_nil_of_not_mem ha, idxsOf]
      rw [if_pos rfl, idxsOf_append, idxsOf_nil_of_not_mem hb, idxsOf]
      rw [if_pos rfl, idxsOf_nil_of_not_mem hc]
      simp
      omega
    have hcount : s.count 'Q' = 2 := by
      rw [hs, List.count_append, List.count_cons, List.count_append, List.count_cons]
      rw [count_eq_zero_of_not_mem' ha, count_eq_zero_of_not_mem' hb,
        count_eq_zero_of_not_mem' hc]
      simp
    have htake2 : s.take (a.length + (1 + b.length)) = a ++ 'Q' :: b := by
      rw [hs, List.take_append]
      congr 1
      rw [show (1 + b.length) = ('Q' :: b).length by simp; omega]
      rw [show 'Q' :: (b ++ 'Q' :: c) = ('Q' :: b) ++ ('Q' :: c) by simp]
      exact List.take_left ('Q' :: b) ('Q' :: c)
    have hdrop2 : s.drop (a.length + (1 + b.length) + 1) = c := by
      rw [hs]
      rw [show a.length + (1 + b.length) + 1 = a.length + ((b.length + 1) + 1) by omega]
      rw [List.drop_append]
      rw [List.drop_succ_cons]
      rw [List.drop_append 1]
      rfl
    refine ⟨?_, ?_, ?_⟩
    · rw [fillCodas]
      rw [if_neg (by omega), if_neg (by omega), if_pos hcount]
      rw [hidx]
      dsimp only
      rw [htake2, hdrop2]
      simp only [List.append_assoc]
    · intro hS
      have h0 : segnoOffset s = 0 := by
        rw [segnoOffset, (findIdxOf_eq_none_iff 'S' s).mpr hS]
      rw [h0, hs]
      rw [show a ++ 'Q' :: (b ++ 'Q' :: c) = a ++ ('Q' :: (b ++ 'Q' :: c)) from rfl,
        List.take_left]
      exact List.drop_zero a
    · intro u v hsu hSu
      rw [segnoOffset, hsu]
      rw [show findIdxOf 'S' (u ++ 'S' :: v) = some u.length by
        rw [findIdxOf, idxsOf_append, idxsOf_nil_of_not_mem hSu, idxsOf, if_pos rfl]
        simp]
  · intro hgt
    rw [fillCodas, if_pos hgt]

/-- C3 witness: the spec's example `"S Am Dm Q G C Q F"` (segno present,
two coda marks) resolves to playing from the segno through the first `Q`,
then jumping past the second `Q`, with all marks removed. -/
theorem c3_witness :
    fillCodas "S Am Dm Q G C Q F".toList = .ok " Am Dm  G C  Am Dm  | F".toList := by
  have h := ((c3_fill_codas_cases "S Am Dm Q G C Q F".toList).2.2.1
    "S Am Dm ".toList " G C ".toList " F".toList (by decide) (by decide) (by decide)
    (by decide)).1
  rw [h]
  exact congrArg Except.ok (by decide)

/-! ### Claims C5, C6 and C10: the measure infill passes -/

theorem strip_sublist (s : List Char) : (strip s).Sublist s := by
  have h1 : (lstrip s).Sublist s := List.dropWhile_sublist isWs
  have h2 : (rstrip (lstrip s)).Sublist (lstrip s) := by
    rw [rstrip]
    have := (List.dropWhile_sublist isWs (l := (lstrip s).reverse)).reverse
    simpa using this
  exact h2.trans h1

theorem splitRX_no_marker :
    ∀ {m : List Char}, (∀ ch ∈ m, ch ≠ 'r' ∧ ch ≠ 'x') → splitRX m = ([m], []) := by
  intro m
  induction m with
  | nil => intro _; rfl
  | cons c rest ih =>
    intro h
    rw [splitRX]
    have hc := h c (List.mem_cons_self c rest)
    rw [if_neg (by
      intro hcon
      rcases hcon with hcon | hcon
      · exact hc.1 hcon
      · exact hc.2 hcon)]
    rw [ih (fun ch hch => h ch (List.mem_cons_of_mem c hch))]

theorem measuresXt_no_marker {m : List Char}
    (h : ∀ ch ∈ m, ch ≠ 'r' ∧ ch ≠ 'x') (hs : strip m ≠ []) :
    measuresXt m = [strip m] := by
  rw [measuresXt, splitRX_no_marker h]
  simp only [List.nil_append]
  rw [interleaveStrip, if_pos hs]
  simp [interleaveStrip, strip, lstrip, rstrip]

theorem measuresXt_r : measuresXt ['r'] = [['r']] := by decide

theorem measuresXt_x : measuresXt ['x'] = [['x']] := by decide

theorem strip_no_rx {m : List Char} (h : ∀ ch ∈ m, ch ≠ 'r' ∧ ch ≠ 'x') :
    ∀ ch ∈ strip m, ch ≠ 'r' ∧ ch ≠ 'x' :=
  fun ch hch => h ch ((strip_sublist m).subset hch)

theorem ne_marker_of_no_rx {m : List Char} (h : ∀ ch ∈ m, ch ≠ 'r' ∧ ch ≠ 'x') :
    m ≠ ['r'] ∧ m ≠ ['x'] := by
  constructor
  · intro hcon
    exact (h 'r' (hcon ▸ List.mem_cons_self 'r' [])).1 rfl
  · intro hcon
    exact (h 'x' (hcon ▸ List.mem_cons_self 'x' [])).2 rfl

theorem removeMarkers_no_rx {m : List Char} (h : ∀ ch ∈ m, ch ≠ 'r' ∧ ch ≠ 'x') :
    ∀ ch ∈ removeMarkers m, ch ≠ 'r' ∧ ch ≠ 'x' :=
  fun ch hch => h ch ((removeMarkers_sublist m).subset hch)

theorem pyGet_nat {l : List (List Char)} {n : Nat} {v : List Char}
    (h : l.get? n = some v) : pyGet l (n : Int) = .ok v := by
  have hlt : n < l.length := by
    by_contra hcon
    rw [List.get?_eq_none.mpr (by omega)] at h
    simp at h
  rw [pyGet, pyIdx]
  rw [if_neg (by omega), if_pos (by simpa using hlt)]
  have hn : ((n : Int)).toNat = n := Int.toNat_ofNat n
  rw [hn]
  dsimp only
  rw [h]

/-! ### Stripping is idempotent -/

theorem dropWhile_isWs_idem (l : List Char) :
    (l.dropWhile isWs).dropWhile isWs = l.dropWhile isWs := by
  induction l with
  | nil => rfl
  | cons ch rest ih =>
    by_cases h : isWs ch
    · simp [List.dropWhile_cons, h, ih]
    · simp [List.dropWhile_cons, h]

theorem dropWhile_append_single (p : Char → Bool) (c : Char) (l : List Char) :
    (l ++ [c]).dropWhile p
      = if l.dropWhile p = [] then [c].dropWhile p else l.dropWhile p ++ [c] := by
  induction l with
  | nil => simp
  | cons a l ih =>
    rw [List.cons_append]
    by_cases h : p a
    · conv_lhs => rw [List.dropWhile_cons, if_pos h]
      conv_rhs => rw [List.dropWhile_cons, if_pos h]
      exact ih
    · conv_lhs => rw [List.dropWhile_cons, if_neg h]
      conv_rhs => rw [List.dropWhile_cons, if_neg h]
      rw [if_neg (List.cons_ne_nil a l)]
      rfl

theorem lstrip_idem (s : List Char) : lstrip (lstrip s) = lstrip s :=
  dropWhile_isWs_idem s

theorem rstrip_idem (s : List Char) : rstrip (rstrip s) = rstrip s := by
  simp [rstrip, dropWhile_isWs_idem]

theorem lstrip_rstrip {u : List Char} (h : lstrip u = u) :
    lstrip (rstrip u) = rstrip u := by
  cases u with
  | nil => rfl
  | cons c t =>
    have hcw : isWs c = false := by
      by_cases hw : isWs c
      · exfalso
        rw [lstrip, List.dropWhile_cons, if_pos hw] at h
        have hlen := congrArg List.length h
        have hle := (List.dropWhile_sublist isWs (l := t)).length_le
        simp at hlen
        omega
      · simpa using hw
    rw [rstrip, List.reverse_cons, dropWhile_append_single]
    by_cases he : t.reverse.dropWhile isWs = []
    · rw [if_pos he]
      simp [List.dropWhile_cons, hcw, lstrip]
    · rw [if_neg he]
      simp [List.dropWhile_cons, hcw, lstrip]

theorem strip_idem (s : List Char) : strip (strip s) = strip s := by
  rw [strip, strip, lstrip_rstrip (lstrip_idem s), rstrip_idem]

/-! ### Claim C6 -/

/-- C6 counterexample: in the measure list `["A", "B", "r", "C"]` the
double-repeat measure `"r"` is immediately followed by the non-empty measure
`"C"`, yet `_fill_single_double_repeats` raises nothing: the slot-insertion
pass adds a reserved blank slot right after `"r"`, the assertion then sees
that blank slot, and the call returns the filled measure list — contradicting
the claim that such an input raises a consistency error. -/
theorem c6_counterexample :
    fillSingleDoubleRepeats [['A'], ['B'], ['r'], ['C']]
      = .ok [['A'], ['B'], ['A'], ['B'], ['C']] := rfl

/-- C6 (amended): a double-repeat measure immediately followed by a non-empty
measure does not make `_fill_single_double_repeats` raise.  For any
marker-free, non-blank measures `a`, `b`, `c`, the input `[a, b, "r", c]` —
in which the double-repeat measure is immediately followed by the non-empty
`c` — succeeds: the slot-insertion pass inserts a reserved blank slot after
`"r"` before the assertion ever runs, and the repeat is infilled from the
stripped contents two and one positions back.  The assertion can only fire
on a blank-slot arrangement the earlier passes themselves never produce. -/
theorem c6_double_repeat_before_nonempty_succeeds (a b c : List Char)
    (ha : ∀ ch ∈ a, ch ≠ 'r' ∧ ch ≠ 'x') (ha2 : strip a ≠ [])
    (hb : ∀ ch ∈ b, ch ≠ 'r' ∧ ch ≠ 'x') (hb2 : strip b ≠ [])
    (hc : ∀ ch ∈ c, ch ≠ 'r' ∧ ch ≠ 'x') (hc2 : strip c ≠ []) :
    fillSingleDoubleRepeats [a, b, ['r'], c]
      = .ok [strip a, strip b, removeMarkers (strip a), removeMarkers (strip b), strip c] := by
  have hpre : preMeasures [a, b, ['r'], c] = [strip a, strip b, ['r'], strip c] := by
    rw [preMeasures]
    simp only [List.map_cons, List.map_nil]
    rw [measuresXt_no_marker ha ha2, measuresXt_no_marker hb hb2, measuresXt_r,
      measuresXt_no_marker hc hc2]
    simp
  have hssc : strip (strip c) ≠ [] := by rw [strip_idem]; exact hc2
  have haddslots : addSlots [strip a, strip b, ['r'], strip c]
      = [strip a, strip b, ['r'], [' '], strip c] := by
    rw [addSlots, if_neg (ne_marker_of_no_rx (strip_no_rx ha)).1]
    rw [addSlots, if_neg (ne_marker_of_no_rx (strip_no_rx hb)).1]
    rw [addSlots, if_pos rfl, if_pos hssc]
    rw [addSlots, if_neg (ne_marker_of_no_rx (strip_no_rx hc)).1]
  have hbr := (ne_marker_of_no_rx (strip_no_rx hb)).1
  have hbx := (ne_marker_of_no_rx (strip_no_rx hb)).2
  have hcr := (ne_marker_of_no_rx (strip_no_rx hc)).1
  have hcx := (ne_marker_of_no_rx (strip_no_rx hc)).2
  have hrmbr := (ne_marker_of_no_rx (removeMarkers_no_rx (strip_no_rx hb))).1
  have hrmbx := (ne_marker_of_no_rx (removeMarkers_no_rx (strip_no_rx hb))).2
  have s1 : fillPhase3 [strip a, strip b, ['r'], [' '], strip c] 1 4
      = fillPhase3 [strip a, strip b, ['r'], [' '], strip c] 2 3 := by
    conv_lhs => rw [show (4 : Nat) = 3 + 1 from rfl, fillPhase3]
    rw [show ([strip a, strip b, ['r'], [' '], strip c].get? 1)
        = some (strip b) from rfl]
    dsimp only
    rw [if_neg hbx, if_neg hbr]
  have s2 : fillPhase3 [strip a, strip b, ['r'], [' '], strip c] 2 3
      = fillPhase3
          [strip a, strip b, removeMarkers (strip a), removeMarkers (strip b), strip c]
          3 2 := by
    conv_lhs => rw [show (3 : Nat) = 2 + 1 from rfl, fillPhase3]
    rw [show ([strip a, strip b, ['r'], [' '], strip c].get? 2)
        = some (['r'] : List Char) from rfl]
    dsimp only
    rw [if_neg (by decide : ¬ (['r'] : List Char) = ['x']), if_pos rfl]
    rw [show (((2 : Nat) : Int) - 2) = ((0 : Nat) : Int) by norm_num]
    rw [pyGet_nat (rfl :
      ([strip a, strip b, ['r'], [' '], strip c].get? 0) = some (strip a))]
    dsimp only
    rw [show ([strip a, strip b, ['r'], [' '], strip c].set 2
        (removeMarkers (strip a)))
        = [strip a, strip b, removeMarkers (strip a), [' '], strip c] from rfl]
    rw [show ([strip a, strip b, removeMarkers (strip a), [' '], strip c].get? (2 + 1))
        = some ([' '] : List Char) from rfl]
    dsimp only
    rw [if_pos (by decide : strip [' '] = [])]
    rw [show (((2 : Nat) : Int) - 1) = ((1 : Nat) : Int) by norm_num]
    rw [pyGet_nat (rfl :
      ([strip a, strip b, removeMarkers (strip a), [' '], strip c].get? 1)
        = some (strip b))]
    dsimp only
    rw [show ([strip a, strip b, removeMarkers (strip a), [' '], strip c].set (2 + 1)
        (removeMarkers (strip b)))
        = [strip a, strip b, removeMarkers (strip a), removeMarkers (strip b), strip c]
        from rfl]
  have s3 : fillPhase3
        [strip a, strip b, removeMarkers (strip a), removeMarkers (strip b), strip c]
        3 2
      = fillPhase3
          [strip a, strip b, removeMarkers (strip a), removeMarkers (strip b), strip c]
          4 1 := by
    conv_lhs => rw [show (2 : Nat) = 1 + 1 from rfl, fillPhase3]
    rw [show ([strip a, strip b, removeMarkers (strip a), removeMarkers (strip b),
        strip c].get? 3) = some (removeMarkers (strip b)) from rfl]
    dsimp only
    rw [if_neg hrmbx, if_neg hrmbr]
  have s4 : fillPhase3
        [strip a, strip b, removeMarkers (strip a), removeMarkers (strip b), strip c]
        4 1
      = .ok [strip a, strip b, removeMarkers (strip a), removeMarkers (strip b),
          strip c] := by
    conv_lhs => rw [show (1 : Nat) = 0 + 1 from rfl, fillPhase3]
    rw [show ([strip a, strip b, removeMarkers (strip a), removeMarkers (strip b),
        strip c].get? 4) = some (strip c) from rfl]
    dsimp only
    rw [if_neg hcx, if_neg hcr]
    rw [fillPhase3]
  rw [fillSingleDoubleRepeats]
  rw [hpre, haddslots]
  rw [show ([strip a, strip b, ['r'], [' '], strip c] :
      List (List Char)).length - 1 = 4 from rfl]
  rw [s1, s2, s3, s4]

/-- C6 witness: the amended theorem applied at the concrete measures
`"Cm"`, `"F"`, `"G7"`. -/
theorem c6_witness :
    fillSingleDoubleRepeats [['C', 'm'], ['F'], ['r'], ['G', '7']]
      = .ok [['C', 'm'], ['F'], ['C', 'm'], ['F'], ['G', '7']] := by
  have h := c6_double_repeat_before_nonempty_succeeds ['C', 'm'] ['F'] ['G', '7']
    (by decide) (by decide) (by decide) (by decide) (by decide) (by decide)
  rw [h]
  rfl

/-- An empty measure contributes nothing to the first pass. -/
theorem measuresXt_nil : measuresXt [] = [] := by decide

/-! ### Claim C5 -/

/-- C5: in `_fill_single_double_repeats`, a measure that is exactly the
single-repeat marker `x` is replaced by the marker-stripped content of the
immediately preceding measure, and a measure that is exactly the
double-repeat marker `r` is replaced by the marker-stripped content two
measures back while its reserved blank slot is replaced by the content one
measure back.  First conjunct: the claim's instance
`["Cmaj7", "x", "Dm7 G7", "r", ""]` yields
`["Cmaj7", "Cmaj7", "Dm7 G7", "Cmaj7", "Dm7 G7"]`.  Second and third
conjuncts: the general single- and double-repeat infill families, for any
marker-free non-blank measures. -/
theorem c5_single_double_repeat_infill :
    fillSingleDoubleRepeats
        [['C', 'm', 'a', 'j', '7'], ['x'], ['D', 'm', '7', ' ', 'G', '7'], ['r'], []]
      = .ok [['C', 'm', 'a', 'j', '7'], ['C', 'm', 'a', 'j', '7'],
          ['D', 'm', '7', ' ', 'G', '7'], ['C', 'm', 'a', 'j', '7'],
          ['D', 'm', '7', ' ', 'G', '7']] ∧
    (∀ a b : List Char, (∀ ch ∈ a, ch ≠ 'r' ∧ ch ≠ 'x') → strip a ≠ [] →
      (∀ ch ∈ b, ch ≠ 'r' ∧ ch ≠ 'x') → strip b ≠ [] →
      fillSingleDoubleRepeats [a, ['x'], b]
        = .ok [strip a, removeMarkers (strip a), strip b]) ∧
    (∀ a b : List Char, (∀ ch ∈ a, ch ≠ 'r' ∧ ch ≠ 'x') → strip a ≠ [] →
      (∀ ch ∈ b, ch ≠ 'r' ∧ ch ≠ 'x') → strip b ≠ [] →
      fillSingleDoubleRepeats [a, b, ['r'], []]
        = .ok [strip a, strip b, removeMarkers (strip a), removeMarkers (strip b)]) := by
  refine ⟨rfl, ?_, ?_⟩
  · intro a b ha ha2 hb hb2
    have hbx := (ne_marker_of_no_rx (strip_no_rx hb)).2
    have hbr := (ne_marker_of_no_rx (strip_no_rx hb)).1
    have hpre : preMeasures [a, ['x'], b] = [strip a, ['x'], strip b] := by
      rw [preMeasures]
      simp only [List.map_cons, List.map_nil]
      rw [measuresXt_no_marker ha ha2, measuresXt_x, measuresXt_no_marker hb hb2]
      simp
    have haddslots : addSlots [strip a, ['x'], strip b] = [strip a, ['x'], strip b] := by
      rw [addSlots, if_neg (ne_marker_of_no_rx (strip_no_rx ha)).1]
      rw [addSlots, if_neg (by decide : ¬ (['x'] : List Char) = ['r'])]
      rw [addSlots, if_neg hbr]
    have s1 : fillPhase3 [strip a, ['x'], strip b] 1 (1 + 1)
        = fillPhase3 [strip a, removeMarkers (strip a), strip b] 2 (0 + 1) := by
      rw [fillPhase3]
      rw [show ([strip a, ['x'], strip b].get? 1) = some (['x'] : List Char) from rfl]
      dsimp only
      rw [if_pos rfl]
      rw [show (((1 : Nat) : Int) - 1) = ((0 : Nat) : Int) by norm_num]
      rw [pyGet_nat (rfl : ([strip a, ['x'], strip b].get? 0) = some (strip a))]
      dsimp only
      rw [show ([strip a, ['x'], strip b].set 1 (removeMarkers (strip a)))
          = [strip a, removeMarkers (strip a), strip b] from rfl]
    have s2 : fillPhase3 [strip a, removeMarkers (strip a), strip b] 2 (0 + 1)
        = .ok [strip a, removeMarkers (strip a), strip b] := by
      rw [fillPhase3]
      rw [show ([strip a, removeMarkers (strip a), strip b].get? 2)
          = some (strip b) from rfl]
      dsimp only
      rw [if_neg hbx, if_neg hbr, fillPhase3]
    rw [fillSingleDoubleRepeats]
    rw [hpre, haddslots]
    rw [show ([strip a, ['x'], strip b] : List (List Char)).length - 1
        = 1 + 1 from rfl]
    rw [s1, s2]
  · intro a b ha ha2 hb hb2
    have hbx := (ne_marker_of_no_rx (strip_no_rx hb)).2
    have hbr := (ne_marker_of_no_rx (strip_no_rx hb)).1
    have hrmbx := (ne_marker_of_no_rx (removeMarkers_no_rx (strip_no_rx hb))).2
    have hrmbr := (ne_marker_of_no_rx (removeMarkers_no_rx (strip_no_rx hb))).1
    have hpre : preMeasures [a, b, ['r'], []] = [strip a, strip b, ['r']] := by
      rw [preMeasures]
      simp only [List.map_cons, List.map_nil]
      rw [measuresXt_no_marker ha ha2, measuresXt_no_marker hb hb2, measuresXt_r,
        measuresXt_nil]
      simp
    have haddslots : addSlots [strip a, strip b, ['r']]
        = [strip a, strip b, ['r'], [' ']] := by
      rw [addSlots, if_neg (ne_marker_of_no_rx (strip_no_rx ha)).1]
      rw [addSlots, if_neg hbr]
      rw [addSlots, if_pos rfl]
    have s1 : fillPhase3 [strip a, strip b, ['r'], [' ']] 1 (2 + 1)
        = fillPhase3 [strip a, strip b, ['r'], [' ']] 2 (1 + 1) := by
      rw [fillPhase3]
      rw [show ([strip a, strip b, ['r'], [' ']].get? 1) = some (strip b) from rfl]
      dsimp only
      rw [if_neg hbx, if_neg hbr]
    have s2 : fillPhase3 [strip a, strip b, ['r'], [' ']] 2 (1 + 1)
        = fillPhase3
            [strip a, strip b, removeMarkers (strip a), removeMarkers (strip b)]
            3 (0 + 1) := by
      rw [fillPhase3]
      rw [show ([strip a, strip b, ['r'], [' ']].get? 2)
          = some (['r'] : List Char) from rfl]
      dsimp only
      rw [if_neg (by decide : ¬ (['r'] : List Char) = ['x']), if_pos rfl]
      rw [show (((2 : Nat) : Int) - 2) = ((0 : Nat) : Int) by norm_num]
      rw [pyGet_nat (rfl : ([strip a, strip b, ['r'], [' ']].get? 0) = some (strip a))]
      dsimp only
      rw [show ([strip a, strip b, ['r'], [' ']].set 2 (removeMarkers (strip a)))
          = [strip a, strip b, removeMarkers (strip a), [' ']] from rfl]
      rw [show ([strip a, strip b, removeMarkers (strip a), [' ']].get? (2 + 1))
          = some ([' '] : List Char) from rfl]
      dsimp only
      rw [if_pos (by decide : strip [' '] = [])]
      rw [show (((2 : Nat) : Int) - 1) = ((1 : Nat) : Int) by norm_num]
      rw [pyGet_nat (rfl :
        ([strip a, strip b, removeMarkers (strip a), [' ']].get? 1) = some (strip b))]
      dsimp only
      rw [show ([strip a, strip b, removeMarkers (strip a), [' ']].set (2 + 1)
          (removeMarkers (strip b)))
          = [strip a, strip b, removeMarkers (strip a), removeMarkers (strip b)]
          from rfl]
    have s3 : fillPhase3
          [strip a, strip b, removeMarkers (strip a), removeMarkers (strip b)]
          3 (0 + 1)
        = .ok [strip a, strip b, removeMarkers (strip a), removeMarkers (strip b)] := by
      rw [fillPhase3]
      rw [show ([strip a, strip b, removeMarkers (strip a),
          removeMarkers (strip b)].get? 3) = some (removeMarkers (strip b)) from rfl]
      dsimp only
      rw [if_neg hrmbx, if_neg hrmbr, fillPhase3]
    rw [fillSingleDoubleRepeats]
    rw [hpre, haddslots]
    rw [show ([strip a, strip b, ['r'], [' ']] : List (List Char)).length - 1
        = 2 + 1 from rfl]
    rw [s1, s2, s3]

/-- C5 witness: the two general conjuncts applied at the concrete measure
lists `["D7", "x", "Em"]` and `["Ab", "Bb", "r", ""]`. -/
theorem c5_witness :
    fillSingleDoubleRepeats [['D', '7'], ['x'], ['E', 'm']]
        = .ok [['D', '7'], ['D', '7'], ['E', 'm']] ∧
    fillSingleDoubleRepeats [['A', 'b'], ['B', 'b'], ['r'], []]
      = .ok [['A', 'b'], ['B', 'b'], ['A', 'b'], ['B', 'b']] := by
  constructor
  · have h := c5_single_double_repeat_infill.2.1 ['D', '7'] ['E', 'm']
      (by decide) (by decide) (by decide) (by decide)
    rw [h]
    rfl
  · have h := c5_single_double_repeat_infill.2.2 ['A', 'b'] ['B', 'b']
      (by decide) (by decide) (by decide) (by decide)
    rw [h]
    rfl

/-- If a character does not occur, its occurrence-index list is empty. -/
theorem idxsOf_eq_nil {c : Char} : ∀ {l : List Char}, c ∉ l → idxsOf c l = [] := by
  intro l
  induction l with
  | nil => intro _; rfl
  | cons x rest ih =>
    intro h
    have hx : ¬ x = c := fun hx => h (hx ▸ List.mem_cons_self x rest)
    simp only [idxsOf]
    rw [if_neg hx, ih (fun hm => h (List.mem_cons_of_mem x hm)), List.map_nil]

/-- `str.find` misses exactly when the character does not occur. -/
theorem findIdxOf_eq_none {c : Char} {l : List Char} (h : c ∉ l) :
    findIdxOf c l = none := by
  rw [findIdxOf, idxsOf_eq_nil h]

/-- `re.sub` of a leading run of `p` characters is the identity on a string
whose first character is not `p`. -/
theorem subLeadingPs_of_head_ne {repl : List Char} {h : Char} {t : List Char}
    (hh : h ≠ 'p') : subLeadingPs repl (h :: t) = h :: t := by
  rw [subLeadingPs.eq_def]
  split
  · rename_i heq
    rw [List.cons.injEq] at heq
    exact absurd heq.1 hh
  · rfl

/-! ### Claim C10 -/

/-- C10: lookback markers at the start of the chart wrap around to the end
of the measure list.  First conjunct (`_fill_slashes`): when the first
measure is the slash marker `p`, the replacement chord is taken from the
measure at Python index `-1` — the last measure of the list — so the first
measure becomes the last measure's final chord token followed by a space.
Second conjunct (`_fill_single_double_repeats`): a double-repeat marker `r`
at index 1 of the slot-extended list reads Python index `1 - 2 = -1`, so the
infilled content is the marker-stripped last element of the list. -/
theorem c10_negative_index_wraparound :
    (∀ (fuel : Nat) (m pc : List Char),
      (chordFindall m).getLast? = some pc → 'p' ∉ m → 'p' ∉ pc →
      fillSlashes (fuel + 1 + 1) [['p'], m] = .ok [pc ++ [' '], m]) ∧
    (∀ a c : List Char, (∀ ch ∈ a, ch ≠ 'r' ∧ ch ≠ 'x') → strip a ≠ [] →
      (∀ ch ∈ c, ch ≠ 'r' ∧ ch ≠ 'x') → strip c ≠ [] →
      fillSingleDoubleRepeats [a, ['r'], c]
        = .ok [strip a, removeMarkers (strip c), removeMarkers (strip a), strip c]) := by
  constructor
  · intro fuel m pc hpc hpm hppc
    have hsub : subLeadingPs (pc ++ [' ']) (pc ++ [' ']) = pc ++ [' '] := by
      cases pc with
      | nil => rfl
      | cons h t =>
        have hh : h ≠ 'p' := fun hcon => hppc (hcon ▸ List.mem_cons_self h t)
        rw [List.cons_append]
        exact subLeadingPs_of_head_ne hh
    have hnp : 'p' ∉ pc ++ [' '] := by
      intro hcon
      rcases List.mem_append.mp hcon with hcon | hcon
      · exact hppc hcon
      · simp at hcon
    have h1 : slashWhile (fuel + 1 + 1) [['p'], m] 0 = .ok [pc ++ [' '], m] := by
      rw [slashWhile]
      rw [show pyGet [['p'], m] ((0 : Nat) : Int) = .ok ['p'] from rfl]
      dsimp only
      rw [show findIdxOf 'p' ['p'] = some 0 from rfl]
      dsimp only
      rw [if_pos rfl]
      rw [show pyGet [['p'], m] (((0 : Nat) : Int) - 1) = .ok m from rfl]
      dsimp only
      rw [hpc]
      dsimp only
      rw [show (['p'] : List Char).drop 1 = [] from rfl, List.append_nil, hsub]
      rw [show ([['p'], m].set 0 (pc ++ [' '])) = [pc ++ [' '], m] from rfl]
      rw [slashWhile]
      rw [show pyGet [pc ++ [' '], m] ((0 : Nat) : Int) = .ok (pc ++ [' ']) from rfl]
      dsimp only
      rw [findIdxOf_eq_none hnp]
    have h2 : slashWhile (fuel + 1 + 1) [pc ++ [' '], m] 1 = .ok [pc ++ [' '], m] := by
      rw [slashWhile]
      rw [show pyGet [pc ++ [' '], m] ((1 : Nat) : Int) = .ok m from rfl]
      dsimp only
      rw [findIdxOf_eq_none hpm]
    have h3 : slashLoop (fuel + 1 + 1) [pc ++ [' '], m] 1 (0 + 1)
        = .ok [pc ++ [' '], m] := by
      rw [slashLoop, h2]
      dsimp only
      rw [slashLoop]
    rw [fillSlashes]
    rw [show ([['p'], m] : List (List Char)).length = 1 + 1 from rfl]
    rw [slashLoop, h1]
    dsimp only
    show slashLoop (fuel + 1 + 1) [pc ++ [' '], m] 1 (0 + 1) = .ok [pc ++ [' '], m]
    exact h3
  · intro a c ha ha2 hc hc2
    have hcx := (ne_marker_of_no_rx (strip_no_rx hc)).2
    have hcr := (ne_marker_of_no_rx (strip_no_rx hc)).1
    have hrmax := (ne_marker_of_no_rx (removeMarkers_no_rx (strip_no_rx ha))).2
    have hrmar := (ne_marker_of_no_rx (removeMarkers_no_rx (strip_no_rx ha))).1
    have hssc : strip (strip c) ≠ [] := by rw [strip_idem]; exact hc2
    have hpre : preMeasures [a, ['r'], c] = [strip a, ['r'], strip c] := by
      rw [preMeasures]
      simp only [List.map_cons, List.map_nil]
      rw [measuresXt_no_marker ha ha2, measuresXt_r, measuresXt_no_marker hc hc2]
      simp
    have haddslots : addSlots [strip a, ['r'], strip c]
        = [strip a, ['r'], [' '], strip c] := by
      rw [addSlots, if_neg (ne_marker_of_no_rx (strip_no_rx ha)).1]
      rw [addSlots, if_pos rfl, if_pos hssc]
      rw [addSlots, if_neg hcr]
    have s1 : fillPhase3 [strip a, ['r'], [' '], strip c] 1 (2 + 1)
        = fillPhase3
            [strip a, removeMarkers (strip c), removeMarkers (strip a), strip c]
            2 (1 + 1) := by
      rw [fillPhase3]
      rw [show ([strip a, ['r'], [' '], strip c].get? 1)
          = some (['r'] : List Char) from rfl]
      dsimp only
      rw [if_neg (by decide : ¬ (['r'] : List Char) = ['x']), if_pos rfl]
      rw [show pyGet [strip a, ['r'], [' '], strip c] (((1 : Nat) : Int) - 2)
          = .ok (strip c) from rfl]
      dsimp only
      rw [show ([strip a, ['r'], [' '], strip c].set 1 (removeMarkers (strip c)))
          = [strip a, removeMarkers (strip c), [' '], strip c] from rfl]
      rw [show ([strip a, removeMarkers (strip c), [' '], strip c].get? (1 + 1))
          = some ([' '] : List Char) from rfl]
      dsimp only
      rw [if_pos (by decide : strip [' '] = [])]
      rw [show pyGet [strip a, removeMarkers (strip c), [' '], strip c]
          (((1 : Nat) : Int) - 1) = .ok (strip a) from rfl]
      dsimp only
      rw [show ([strip a, removeMarkers (strip c), [' '], strip c].set (1 + 1)
          (removeMarkers (strip a)))
          = [strip a, removeMarkers (strip c), removeMarkers (strip a), strip c]
          from rfl]
    have s2 : fillPhase3
          [strip a, removeMarkers (strip c), removeMarkers (strip a), strip c]
          2 (1 + 1)
        = fillPhase3
            [strip a, removeMarkers (strip c), removeMarkers (strip a), strip c]
            3 (0 + 1) := by
      rw [fillPhase3]
      rw [show ([strip a, removeMarkers (strip c), removeMarkers (strip a),
          strip c].get? 2) = some (removeMarkers (strip a)) from rfl]
      dsimp only
      rw [if_neg hrmax, if_neg hrmar]
    have s3 : fillPhase3
          [strip a, removeMarkers (strip c), removeMarkers (strip a), strip c]
          3 (0 + 1)
        = .ok [strip a, removeMarkers (strip c), removeMarkers (strip a),
            strip c] := by
      rw [fillPhase3]
      rw [show ([strip a, removeMarkers (strip c), removeMarkers (strip a),
          strip c].get? 3) = some (strip c) from rfl]
      dsimp only
      rw [if_neg hcx, if_neg hcr, fillPhase3]
    rw [fillSingleDoubleRepeats]
    rw [hpre, haddslots]
    rw [show ([strip a, ['r'], [' '], strip c] : List (List Char)).length - 1
        = 2 + 1 from rfl]
    rw [s1, s2, s3]

/-- C10 witness: both conjuncts applied at concrete inputs — the chart
`["p", "C7"]` whose first measure is a slash, and the measures
`["A", "r", "C7"]` whose double repeat sits at index 1. -/
theorem c10_witness :
    fillSlashes 8 [['p'], ['C', '7']] = .ok [['C', '7', ' '], ['C', '7']] ∧
    fillSingleDoubleRepeats [['A'], ['r'], ['C', '7']]
      = .ok [['A'], ['C', '7'], ['A'], ['C', '7']] := by
  constructor
  · have h := c10_negative_index_wraparound.1 6 ['C', '7'] ['C', '7']
      (by decide) (by decide) (by decide)
    rw [show (8 : Nat) = 6 + 1 + 1 from rfl, h]
    rfl
  · have h := c10_negative_index_wraparound.2 ['A'] ['C', '7']
      (by decide) (by decide) (by decide) (by decide)
    rw [h]
    rfl

/-- A string with no open bracket has no repeat group. -/
theorem searchCurly_eq_none_of_no_obrace :
    ∀ {l : List Char}, obrace ∉ l → searchCurly l = none := by
  intro l
  induction l with
  | nil => intro _; rfl
  | cons c rest ih =>
    intro h
    have hc : ¬ c = obrace := fun hcon => h (hcon ▸ List.mem_cons_self c rest)
    rw [searchCurly]
    rw [if_neg hc]
    rw [ih (fun hm => h (List.mem_cons_of_mem c hm))]
    rfl

/-- The engine returns any string with no open bracket unchanged. -/
theorem fillLongRepeats_succ_no_obrace (fuel : Nat) {t : List Char}
    (h : obrace ∉ t) : fillLongRepeats (fuel + 1) t = .ok t := by
  have h1 : fillLongStep t = .ok none := by
    rw [fillLongStep, searchCurly_eq_none_of_no_obrace h]
  rw [fillLongRepeats, h1]

/-- The lazy close-bracket split of a well-formed group. -/
theorem splitAtClose_append (post : List Char) :
    ∀ {g : List Char}, cbrace ∉ g → '\n' ∉ g →
      splitAtClose (g ++ cbrace :: post) = some (g, post) := by
  intro g
  induction g with
  | nil =>
    intro _ _
    rw [List.nil_append, splitAtClose, if_pos rfl]
  | cons c g' ih =>
    intro hc hn
    have hc1 : ¬ c = cbrace := fun hcon => hc (hcon ▸ List.mem_cons_self c g')
    have hn1 : ¬ c = '\n' := fun hcon => hn (hcon ▸ List.mem_cons_self c g')
    rw [List.cons_append, splitAtClose]
    rw [if_neg hc1]
    rw [if_neg hn1]
    rw [ih (fun hm => hc (List.mem_cons_of_mem c hm))
      (fun hm => hn (List.mem_cons_of_mem c hm))]
    rfl

/-- The group matcher on a well-formed group. -/
theorem findGroupAt_append {g : List Char} (post : List Char) (hne : g ≠ [])
    (hc : cbrace ∉ g) (hn : '\n' ∉ g) :
    findGroupAt (g ++ cbrace :: post) = some (g, post) := by
  match g, hne with
  | c :: g', _ =>
    have hn1 : ¬ c = '\n' := fun hcon => hn (hcon ▸ List.mem_cons_self c g')
    rw [List.cons_append, findGroupAt]
    rw [if_neg hn1]
    rw [splitAtClose_append post (fun hm => hc (List.mem_cons_of_mem c hm))
      (fun hm => hn (List.mem_cons_of_mem c hm))]
    rfl

/-- The leftmost repeat group of a string that starts with one. -/
theorem searchCurly_head (g post : List Char) (hne : g ≠ [])
    (hc : cbrace ∉ g) (hn : '\n' ∉ g) :
    searchCurly (obrace :: (g ++ cbrace :: post)) = some ([], g, post) := by
  rw [searchCurly, if_pos rfl, findGroupAt_append post hne hc hn]

/-- No numbered-ending marker without an `N`. -/
theorem hasNDigit_eq_false_of_no_N :
    ∀ {l : List Char}, 'N' ∉ l → hasNDigit l = false := by
  intro l
  induction l with
  | nil => intro _; rfl
  | cons c rest ih =>
    intro h
    have hc : ¬ c = 'N' := fun hcon => h (hcon ▸ List.mem_cons_self c rest)
    have hr := ih (fun hm => h (List.mem_cons_of_mem c hm))
    cases rest with
    | nil => rfl
    | cons d rest2 =>
      rw [hasNDigit, hr]
      simp [hc]

/-- No count annotation without a `<`. -/
theorem lastCountAnnot_eq_none_of_no_lt :
    ∀ {l : List Char}, '<' ∉ l → lastCountAnnot l = none := by
  intro l
  induction l with
  | nil => intro _; rfl
  | cons c rest ih =>
    intro h
    have hc : ¬ c = '<' := fun hcon => h (hcon ▸ List.mem_cons_self c rest)
    have hca : countAnnotAt (c :: rest) = none := by
      rw [countAnnotAt, if_neg hc]
    rw [lastCountAnnot, ih (fun hm => h (List.mem_cons_of_mem c hm)), hca]

/-- The digit run of a digit string followed by an `x`. -/
theorem takeWhile_digits_append (l : List Char) :
    ∀ {ds : List Char}, (∀ d ∈ ds, d.isDigit) →
      (ds ++ 'x' :: l).takeWhile Char.isDigit = ds := by
  intro ds
  induction ds with
  | nil =>
    intro _
    rw [List.nil_append, List.takeWhile_cons, if_neg (by decide)]
  | cons d ds' ih =>
    intro h
    rw [List.cons_append, List.takeWhile_cons,
      if_pos (h d (List.mem_cons_self d ds')),
      ih (fun x hx => h x (List.mem_cons_of_mem d hx))]

/-- A count annotation matches at its own opening angle bracket. -/
theorem countAnnotAt_trailing {ds : List Char} (h : ∀ d ∈ ds, d.isDigit)
    (hne : ds ≠ []) : countAnnotAt ('<' :: (ds ++ ['x', '>'])) = some (ds, []) := by
  rw [countAnnotAt, if_pos rfl]
  have ht : (ds ++ ['x', '>']).takeWhile Char.isDigit = ds := takeWhile_digits_append ['>'] h
  rw [ht]
  dsimp only
  rw [if_neg hne, List.drop_left]
  rfl

/-- A trailing count annotation is the last one found. -/
theorem lastCountAnnot_append_last {ds : List Char} (h : ∀ d ∈ ds, d.isDigit)
    (hne : ds ≠ []) :
    ∀ g : List Char,
      lastCountAnnot (g ++ '<' :: (ds ++ ['x', '>'])) = some (g, ds, []) := by
  intro g
  induction g with
  | nil =>
    rw [List.nil_append, lastCountAnnot]
    have hrest : lastCountAnnot (ds ++ ['x', '>']) = none := by
      apply lastCountAnnot_eq_none_of_no_lt
      intro hcon
      rcases List.mem_append.mp hcon with hm | hm
      · exact absurd (h _ hm) (by decide)
      · simp at hm
    rw [hrest, countAnnotAt_trailing h hne]
  | cons c g' ih =>
    rw [List.cons_append, lastCountAnnot, ih]

/-- A string containing a non-whitespace character does not strip to blank. -/
theorem strip_ne_nil_of_mem {c : Char} {l : List Char} (hc : c ∈ l)
    (hw : isWs c = false) : strip l ≠ [] := by
  intro hcon
  have := all_isWs_of_strip_eq_nil hcon c hc
  rw [hw] at this
  simp at this

/-- `mjoin` of a blank prefix, a kept piece, a piece that starts with a bar
line after whitespace, and a blank suffix is plain concatenation. -/
theorem mjoin_pre_nil {tr reps : List Char} (htr : strip tr ≠ [])
    (hreps : strip reps ≠ []) (hsep : headNonWs reps = some '|') :
    mjoin [] [tr, reps, []] = .ok (tr ++ reps) := by
  rw [mjoin]
  have hfil : ([([] : List Char), tr, reps, []].filter (fun cs => strip cs ≠ []))
      = [tr, reps] := by
    rw [List.filter_cons, if_neg (by decide)]
    rw [List.filter_cons, if_pos (decide_eq_true htr)]
    rw [List.filter_cons, if_pos (decide_eq_true hreps)]
    rw [List.filter_cons, if_neg (by decide), List.filter_nil]
  rw [hfil]
  dsimp only
  have hsepz : mjoinSep tr reps = [] := by
    rw [mjoinSep, if_neg (fun hcon => hcon.2 hsep)]
  rw [mjoinAux, mjoinAux, hsepz, List.append_nil]

/-! ### Claim C2 -/

/-- C2: counted bracket expansion.  First conjunct: for any repeat group
`\x7bg<ds x>\x7d` carrying a trailing count annotation (digits `ds`, count at
least 2) and no numbered-ending marker, the engine emits the group content
(annotation removed, double spaces collapsed) once, followed by count − 1
marker-stripped copies each prefixed by the bar separator `" |"`.  Second
conjunct: with no annotation the count defaults to 2 — content once plus one
marker-stripped copy after a bar separator.  Third conjunct: the claim
instance `"\x7bCmaj7 Dm7 <3x>\x7d"` expands, after whitespace normalization,
to exactly `"Cmaj7 Dm7 |Cmaj7 Dm7 |Cmaj7 Dm7"` — three occurrences, two
separator insertions. -/
theorem c2_counted_expansion :
    (∀ (fuel : Nat) (g ds : List Char),
      (∀ d ∈ ds, d.isDigit) → ds ≠ [] → 2 ≤ natOfDigits ds →
      obrace ∉ g → cbrace ∉ g → '\n' ∉ g → 'N' ∉ g →
      strip (replaceDoubleSpace g) ≠ [] →
      fillLongRepeats (fuel + 1 + 1) (obrace :: g ++ '<' :: ds ++ ['x', '>', cbrace])
        = .ok (replaceDoubleSpace g ++
            List.join (List.replicate (natOfDigits ds - 1)
              (' ' :: '|' :: removeMarkers (replaceDoubleSpace g))))) ∧
    (∀ (fuel : Nat) (g : List Char),
      obrace ∉ g → cbrace ∉ g → '\n' ∉ g → 'N' ∉ g → g ≠ [] →
      lastCountAnnot g = none → strip g ≠ [] →
      fillLongRepeats (fuel + 1 + 1) (obrace :: g ++ [cbrace])
        = .ok (g ++ ' ' :: '|' :: removeMarkers g)) ∧
    (fillLongRepeats 2 "\x7bCmaj7 Dm7 <3x>\x7d".toList).map normalizeWs
      = .ok "Cmaj7 Dm7 |Cmaj7 Dm7 |Cmaj7 Dm7".toList := by
  refine ⟨?_, ?_, rfl⟩
  · intro fuel g ds hds hdsne hk hob hcb hnl hN hstr
    have hA : (obrace :: g ++ '<' :: ds ++ ['x', '>', cbrace] : List Char)
        = obrace :: ((g ++ '<' :: (ds ++ ['x', '>'])) ++ cbrace :: []) := by
      simp
    rw [hA]
    have hg0ne : g ++ '<' :: (ds ++ ['x', '>']) ≠ [] := by simp
    have hg0cb : cbrace ∉ g ++ '<' :: (ds ++ ['x', '>']) := by
      intro hcon
      rcases List.mem_append.mp hcon with hm | hm
      · exact hcb hm
      · rcases List.mem_cons.mp hm with hm | hm
        · exact absurd hm (by decide)
        · rcases List.mem_append.mp hm with hm | hm
          · exact absurd (hds _ hm) (by decide)
          · rcases List.mem_cons.mp hm with hm | hm
            · exact absurd hm (by decide)
            · exact absurd hm (by decide)
    have hg0nl : '\n' ∉ g ++ '<' :: (ds ++ ['x', '>']) := by
      intro hcon
      rcases List.mem_append.mp hcon with hm | hm
      · exact hnl hm
      · rcases List.mem_cons.mp hm with hm | hm
        · exact absurd hm (by decide)
        · rcases List.mem_append.mp hm with hm | hm
          · exact absurd (hds _ hm) (by decide)
          · rcases List.mem_cons.mp hm with hm | hm
            · exact absurd hm (by decide)
            · exact absurd hm (by decide)
    have hg0N : 'N' ∉ g ++ '<' :: (ds ++ ['x', '>']) := by
      intro hcon
      rcases List.mem_append.mp hcon with hm | hm
      · exact hN hm
      · rcases List.mem_cons.mp hm with hm | hm
        · exact absurd hm (by decide)
        · rcases List.mem_append.mp hm with hm | hm
          · exact absurd (hds _ hm) (by decide)
          · rcases List.mem_cons.mp hm with hm | hm
            · exact absurd hm (by decide)
            · exact absurd hm (by decide)
    rw [fillLongRepeats, fillLongStep,
      searchCurly_head (g ++ '<' :: (ds ++ ['x', '>'])) [] hg0ne hg0cb hg0nl]
    dsimp only
    rw [if_neg (by simp [hasNDigit_eq_false_of_no_N hg0N] :
      ¬ hasNDigit (g ++ '<' :: (ds ++ ['x', '>'])) = true)]
    rw [lastCountAnnot_append_last hds hdsne g]
    dsimp only
    rw [List.append_nil]
    obtain ⟨k, hk2⟩ : ∃ k, natOfDigits ds - 1 = k + 1 := ⟨natOfDigits ds - 2, by omega⟩
    rw [hk2, List.replicate_succ]
    rw [show ((' ' :: '|' :: removeMarkers (replaceDoubleSpace g)) ::
        List.replicate k (' ' :: '|' :: removeMarkers (replaceDoubleSpace g))).join
        = (' ' :: '|' :: removeMarkers (replaceDoubleSpace g)) ++
          (List.replicate k (' ' :: '|' :: removeMarkers (replaceDoubleSpace g))).join
        from rfl]
    have hw : obrace ∉ removeMarkers (replaceDoubleSpace g) := fun hcon =>
      hob ((replaceDoubleSpace_sublist g).subset
        ((removeMarkers_sublist (replaceDoubleSpace g)).subset hcon))
    have hreps : strip ((' ' :: '|' :: removeMarkers (replaceDoubleSpace g)) ++
        (List.replicate k
          (' ' :: '|' :: removeMarkers (replaceDoubleSpace g))).join) ≠ [] := by
      apply strip_ne_nil_of_mem (c := '|')
      · exact List.mem_append.mpr (Or.inl (by simp))
      · decide
    rw [mjoin_pre_nil hstr hreps rfl]
    dsimp only
    apply fillLongRepeats_succ_no_obrace
    intro hcon
    rcases List.mem_append.mp hcon with hm | hm
    · exact hob ((replaceDoubleSpace_sublist g).subset hm)
    · rcases List.mem_append.mp hm with hm | hm
      · rcases List.mem_cons.mp hm with hm | hm
        · exact absurd hm (by decide)
        · rcases List.mem_cons.mp hm with hm | hm
          · exact absurd hm (by decide)
          · exact hw hm
      · rcases List.mem_join.mp hm with ⟨l, hl, hml⟩
        rw [List.eq_of_mem_replicate hl] at hml
        rcases List.mem_cons.mp hml with hm | hm
        · exact absurd hm (by decide)
        · rcases List.mem_cons.mp hm with hm | hm
          · exact absurd hm (by decide)
          · exact hw hm
  · intro fuel g hob hcb hnl hN hgne hlast hstr
    have hA : (obrace :: g ++ [cbrace] : List Char) = obrace :: (g ++ cbrace :: []) := by
      simp
    rw [hA]
    rw [fillLongRepeats, fillLongStep, searchCurly_head g [] hgne hcb hnl]
    dsimp only
    rw [if_neg (by simp [hasNDigit_eq_false_of_no_N hN] : ¬ hasNDigit g = true)]
    rw [hlast]
    dsimp only
    rw [show List.join (List.replicate (2 - 1) (' ' :: '|' :: removeMarkers g))
        = (' ' :: '|' :: removeMarkers g) ++ ([] : List Char) from rfl,
      List.append_nil]
    have hw : obrace ∉ removeMarkers g := fun hcon =>
      hob ((removeMarkers_sublist g).subset hcon)
    have hreps : strip (' ' :: '|' :: removeMarkers g) ≠ [] := by
      apply strip_ne_nil_of_mem (c := '|')
      · simp
      · decide
    rw [mjoin_pre_nil hstr hreps rfl]
    dsimp only
    apply fillLongRepeats_succ_no_obrace
    intro hcon
    rcases List.mem_append.mp hcon with hm | hm
    · exact hob hm
    · rcases List.mem_cons.mp hm with hm | hm
      · exact absurd hm (by decide)
      · rcases List.mem_cons.mp hm with hm | hm
        · exact absurd hm (by decide)
        · exact hw hm

/-- C2 witness: the two general conjuncts applied at the concrete inputs
`"\x7bA <3x>\x7d"` and `"\x7bBm\x7d"`. -/
theorem c2_witness :
    fillLongRepeats 7 [obrace, 'A', ' ', '<', '3', 'x', '>', cbrace]
        = .ok "A  |A  |A ".toList ∧
    fillLongRepeats 7 [obrace, 'B', 'm', cbrace] = .ok "Bm |Bm".toList := by
  constructor
  · have h := c2_counted_expansion.1 5 ['A', ' '] ['3'] (by decide) (by decide)
      (by decide) (by decide) (by decide) (by decide) (by decide) (by decide)
    rw [show (7 : Nat) = 5 + 1 + 1 from rfl]
    rw [show ([obrace, 'A', ' ', '<', '3', 'x', '>', cbrace] : List Char)
        = obrace :: ['A', ' '] ++ '<' :: ['3'] ++ ['x', '>', cbrace] from rfl]
    rw [h]
    rfl
  · have h := c2_counted_expansion.2.1 5 ['B', 'm'] (by decide) (by decide)
      (by decide) (by decide) (by decide) (by rfl) (by decide)
    rw [show (7 : Nat) = 5 + 1 + 1 from rfl]
    rw [show ([obrace, 'B', 'm', cbrace] : List Char)
        = obrace :: ['B', 'm'] ++ [cbrace] from rfl]
    rw [h]
    rfl


/-- Shifting every index by one shifts every onset by one chord duration. -/
theorem map_succ_zip_map (d : ℚ) (m : Nat) :
    ∀ (l : List Nat) (ts : List (List Char)) (a : ℚ),
      ((l.map Nat.succ).zip ts).map
          (fun it => ((m, a + (it.1 : ℚ) * d, d, it.2) : Nat × ℚ × ℚ × List Char))
        = (l.zip ts).map (fun it => (m, (a + d) + (it.1 : ℚ) * d, d, it.2)) := by
  intro l
  induction l with
  | nil => intro ts a; rfl
  | cons i l ih =>
    intro ts a
    cases ts with
    | nil => rfl
    | cons t ts' =>
      simp only [List.map_cons, List.zip_cons_cons]
      rw [ih]
      congr 1
      have hx : (↑(Nat.succ i) : ℚ) * d = d + ↑i * d := by push_cast; ring
      rw [hx]
      ring_nf

/-- The running sum of a constant list is the sequence of its multiples:
`np.cumsum` over `k - 1` copies of `d` starting from `a` times token `i` at
`a + i * d`. -/
theorem scanl_replicate_spec (d : ℚ) (m : Nat) :
    ∀ (toks : List (List Char)) (a : ℚ),
      ((List.scanl (· + ·) a (List.replicate (toks.length - 1) d)).zip toks).map
          (fun oc => ((m, oc.1, d, oc.2) : Nat × ℚ × ℚ × List Char))
        = ((List.range toks.length).zip toks).map
            (fun it => (m, a + (it.1 : ℚ) * d, d, it.2)) := by
  intro toks
  induction toks with
  | nil => intro a; rfl
  | cons t ts ih =>
    intro a
    cases ts with
    | nil =>
      simp only [List.scanl]
      rw [show List.range ([t] : List (List Char)).length = [0] from rfl]
      simp
    | cons u us =>
      have hlen : (t :: u :: us).length - 1 = us.length + 1 := by simp
      rw [hlen, List.replicate_succ, List.scanl_cons]
      have hlen2 : (u :: us).length - 1 = us.length := by simp
      have hih := ih (a + d)
      rw [hlen2] at hih
      rw [show ([a] ++ List.scanl (· + ·) (a + d) (List.replicate us.length d))
          = a :: List.scanl (· + ·) (a + d) (List.replicate us.length d) from rfl]
      rw [List.zip_cons_cons, List.map_cons, hih]
      rw [show (t :: u :: us).length = (u :: us).length + 1 from rfl]
      rw [List.range_succ_eq_map, List.zip_cons_cons, List.map_cons]
      rw [map_succ_zip_map d m]
      congr 1
      simp

/-! ### Claim C7 -/

/-- C7: chord timing.  First conjunct: for every measure list with only
non-empty measures, the chord loop of `extract_annotations_from_tune` emits
exactly the spec-side events — for each measure `m` (1-based) with `k` chord
tokens, exactly `k` events, token `i` (0-based) at beat offset `i * (b / k)`
with duration `b / k`.  Second conjunct: a 4-beat measure with 2 chord
tokens yields events at offsets 0 and 2, each of duration 2. -/
theorem c7_chord_timing :
    (∀ (measures : List (List Char)) (b : Nat) (m : Nat),
      (∀ meas ∈ measures, splitWs meas ≠ []) →
      extractChords measures b m = .ok (specChordEvents measures b m)) ∧
    extractChords [['C', ' ', 'G']] 4 1
      = .ok [(1, 0, 2, ['C']), (1, 2, 2, ['G'])] := by
  constructor
  · intro measures b
    induction measures with
    | nil => intro m _; rfl
    | cons meas rest ih =>
      intro m h
      have hne := h meas (List.mem_cons_self meas rest)
      have hk : (splitWs meas).length ≠ 0 := by
        intro hcon
        exact hne (List.eq_nil_of_length_eq_zero hcon)
      rw [extractChords]
      rw [if_neg hk]
      rw [ih (m + 1) (fun x hx => h x (List.mem_cons_of_mem meas hx))]
      simp only []
      rw [specChordEvents]
      congr 1
      congr 1
      rw [cumsum, List.scanl_cons, List.singleton_append, List.drop_one, List.tail_cons]
      rw [show ((0 : ℚ) + 0) = 0 from by norm_num]
      rw [scanl_replicate_spec]
      simp only [zero_add]
  · rw [extractChords]
    rw [show splitWs ['C', ' ', 'G'] = [['C'], ['G']] from rfl]
    simp only []
    rw [if_neg (by decide : ¬ ([['C'], ['G']] : List (List Char)).length = 0)]
    rw [show extractChords ([] : List (List Char)) 4 (1 + 1) = .ok [] from rfl]
    simp [cumsum, List.scanl]
    norm_num

/-- C7 witness: the general conjunct applied to the single-measure list
`["E"]` with 4 beats per measure. -/
theorem c7_witness :
    (∀ meas ∈ ([['E']] : List (List Char)), splitWs meas ≠ []) ∧
    extractChords [['E']] 4 1 = .ok (specChordEvents [['E']] 4 1) :=
  ⟨by decide, c7_chord_timing.1 [['E']] 4 1 (by decide)⟩

/-! ### Claim C8 -/

/-- C8 counterexample: on the one-measure tune `["C"]` in 4/4 with key `C`,
the single key event and the single time-signature event both carry beat
offset 1 — the Python literal `[1, 1, beat_duration, ...]` — not beat offset
0 as claimed, and 1 ≠ 0. -/
theorem c8_counterexample :
    extractAnnotationsFromTune [['C']] 4 4 ['C']
      = .ok ([(1, 0, 4, ['C'])], [(1, 1, 4, ['C'])], [(1, 1, 4, (4, 4))]) ∧
    (1 : ℚ) ≠ 0 := by
  constructor
  · have hc : extractChords [['C']] 4 1 = .ok [(1, 0, 4, ['C'])] := by
      rw [extractChords]
      rw [show splitWs ['C'] = [['C']] from rfl]
      simp only []
      rw [if_neg (by decide : ¬ ([['C']] : List (List Char)).length = 0)]
      rw [show extractChords ([] : List (List Char)) 4 (1 + 1) = .ok [] from rfl]
      simp [cumsum, List.scanl]
    rw [extractAnnotationsFromTune]
    rw [hc]
    simp only []
    rw [if_pos (by decide : (splitWs ['C']).length = 1)]
    norm_num
  · norm_num

/-- C8 (amended): for every successfully processed tune,
`extract_annotations_from_tune` emits exactly one key event and exactly one
time-signature event, each with beat offset 1 (not 0) and duration equal to
the time-signature numerator multiplied by the number of measures. -/
theorem c8_key_timesig_events (measures : List (List Char)) (b den : Nat)
    (key : List Char) (cs : List (Nat × ℚ × ℚ × List Char))
    (hcs : extractChords measures b 1 = .ok cs)
    (hkey : (splitWs key).length = 1) :
    extractAnnotationsFromTune measures b den key
      = .ok (cs, [(1, (1 : ℚ), (b : ℚ) * (measures.length : ℚ), key)],
          [(1, (1 : ℚ), (b : ℚ) * (measures.length : ℚ), (b, den))]) := by
  rw [extractAnnotationsFromTune]
  rw [hcs]
  simp only []
  rw [if_pos hkey]

/-- C8 witness: the amended theorem applied to the one-measure tune `["D"]`
in 3/4 with key `D`. -/
theorem c8_witness :
    extractAnnotationsFromTune [['D']] 3 4 ['D']
      = .ok ([(1, 0, 3, ['D'])], [(1, 1, 3, ['D'])], [(1, 1, 3, (3, 4))]) := by
  have hc : extractChords [['D']] 3 1 = .ok [(1, 0, 3, ['D'])] := by
    rw [extractChords]
    rw [show splitWs ['D'] = [['D']] from rfl]
    simp only []
    rw [if_neg (by decide : ¬ ([['D']] : List (List Char)).length = 0)]
    rw [show extractChords ([] : List (List Char)) 3 (1 + 1) = .ok [] from rfl]
    simp [cumsum, List.scanl]
  have h := c8_key_timesig_events [['D']] 3 4 ['D'] [(1, 0, 3, ['D'])] hc (by decide)
  rw [h]
  norm_num


end IRealParser
